import Mathlib

/-!
Verification of the `index_tools` inverted-index engine (Rust crate
`fingertips`): a shallow embedding of the in-memory index builder
(`src/index.rs`), the binary index file writer (`src/write.rs`), the two
reader paths (`src/read.rs`) and the temporary-file allocator
(`src/tmp.rs`), together with theorems settling the specification claims.

Modelling conventions:
* A file, a Rust `Vec<u8>` and a Rust `String` are all modelled as
  `List Nat` of byte values (a Rust `String` is exactly its UTF-8 byte
  vector; string comparison and equality in Rust are byte-wise).
* A Rust `HashMap` is modelled as an association list together with
  no-duplicate-keys hypotheses where a proof needs the `HashMap` key
  invariant; lookup takes the first (equivalently, for unique keys, the
  only) matching entry.
* Machine integers are `Nat` with explicit `% 2^32` / `% 2^64` where the
  code casts (`as u32`) or where wrapping can occur; the little-endian
  byte encodings below keep exactly the low `w` bytes, which is the same
  wrapping behaviour.
* Fallible I/O is explicit: reads on a byte list either return a value
  and the remaining bytes or fail with `unexpectedEof` (the only I/O
  failure expressible on in-memory bytes); Rust panics (`unwrap`,
  `expect`) are modelled by a distinct `panicked` outcome, kept separate
  from `Err` returns.
-/

namespace IndexTools

/-- HASH_LENGTH from src/lib.rs: document hashes are 32 bytes. -/
def HASH_LENGTH : Nat := 32

/-! ## Little-endian byte encoding and decoding -/

/-- Encode the low `w` bytes of `n` in little-endian order, as
`byteorder::LittleEndian` does for `u32` (`w = 4`) and `u64` (`w = 8`).
Only `n % 256^w` is kept, matching machine-integer wrapping. -/
def encodeLE : Nat → Nat → List Nat
  | 0, _ => []
  | w + 1, n => n % 256 :: encodeLE w (n / 256)

/-- Decode a little-endian byte list into a natural number. -/
def decodeLE (bs : List Nat) : Nat :=
  bs.foldr (fun b acc => b + 256 * acc) 0

/-! ## UTF-8 validity

`String::from_utf8` accepts exactly the byte sequences that are
well-formed UTF-8 (RFC 3629): no surrogates, no overlong forms, no code
points above U+10FFFF. `validUTF8` is that table; `string_from_utf8`
below models `String::from_utf8`, returning the bytes themselves on
success (a Rust `String` is its UTF-8 byte vector). -/

/-- UTF-8 acceptor, deterministic-automaton style. The first argument is
the list of byte ranges still expected to finish the current multi-byte
sequence (empty when at a sequence boundary); leading bytes push the
ranges RFC 3629 prescribes, which rules out overlong forms, surrogates
and code points above U+10FFFF. -/
def validUTF8Aux : List (Nat × Nat) → List Nat → Bool
  | [], [] => true
  | _ :: _, [] => false
  | (lo, hi) :: ps, b :: rest =>
      if lo ≤ b && b ≤ hi then validUTF8Aux ps rest else false
  | [], b :: rest =>
      if b ≤ 0x7F then validUTF8Aux [] rest
      else if 0xC2 ≤ b && b ≤ 0xDF then
        validUTF8Aux [(0x80, 0xBF)] rest
      else if b == 0xE0 then
        validUTF8Aux [(0xA0, 0xBF), (0x80, 0xBF)] rest
      else if (0xE1 ≤ b && b ≤ 0xEC) || b == 0xEE || b == 0xEF then
        validUTF8Aux [(0x80, 0xBF), (0x80, 0xBF)] rest
      else if b == 0xED then
        validUTF8Aux [(0x80, 0x9F), (0x80, 0xBF)] rest
      else if b == 0xF0 then
        validUTF8Aux [(0x90, 0xBF), (0x80, 0xBF), (0x80, 0xBF)] rest
      else if 0xF1 ≤ b && b ≤ 0xF3 then
        validUTF8Aux [(0x80, 0xBF), (0x80, 0xBF), (0x80, 0xBF)] rest
      else if b == 0xF4 then
        validUTF8Aux [(0x80, 0x8F), (0x80, 0xBF), (0x80, 0xBF)] rest
      else false

/-- Decide whether a byte list is well-formed UTF-8, which is exactly
the condition under which `String::from_utf8` succeeds. -/
def validUTF8 (bs : List Nat) : Bool := validUTF8Aux [] bs

/-! ## I/O primitives over in-memory bytes

Reads consume from the front of a byte list. The only I/O failure that
in-memory bytes can produce is `UnexpectedEof` from `read_exact` /
`read_u32` / `read_u64`; other error kinds (`NotFound` for opening a
missing file, and the decoder's `Other` errors) have their own
constructors. -/

/-- Rust `io::ErrorKind` values that the modelled code can produce. -/
inductive IOError where
  /-- Attempt to read past the end of the available bytes. -/
  | unexpectedEof : IOError
  /-- Opening a file that does not exist. -/
  | notFound : IOError
  /-- Exclusive creation (`create_new`) of a name that already exists. -/
  | alreadyExists : IOError
  /-- An error created with `io::Error::new(ErrorKind::Other, msg)`. -/
  | other : String → IOError
deriving DecidableEq, Repr

/-- Model of `read_exact` into an `n`-byte buffer: succeeds exactly when
`n` bytes are available, returning them and the rest of the stream. -/
def readExact (bs : List Nat) (n : Nat) : Except IOError (List Nat × List Nat) :=
  if n ≤ bs.length then .ok (bs.take n, bs.drop n)
  else .error .unexpectedEof

/-- Model of `byteorder` `read_u32::<LittleEndian>`. -/
def readU32 (bs : List Nat) : Except IOError (Nat × List Nat) :=
  if 4 ≤ bs.length then .ok (decodeLE (bs.take 4), bs.drop 4)
  else .error .unexpectedEof

/-- Model of `byteorder` `read_u64::<LittleEndian>`. -/
def readU64 (bs : List Nat) : Except IOError (Nat × List Nat) :=
  if 8 ≤ bs.length then .ok (decodeLE (bs.take 8), bs.drop 8)
  else .error .unexpectedEof

/-- Model of a `seek(SeekFrom::Start(off))` followed by `read_exact`
into an `n`-byte buffer, reading absolute positions of `file`. A
zero-length `read_exact` succeeds even past end of file. -/
def readExactAt (file : List Nat) (off n : Nat) :
    Except IOError (List Nat) :=
  if n = 0 then .ok []
  else if off + n ≤ file.length then .ok ((file.drop off).take n)
  else .error .unexpectedEof

/-- Model of `String::from_utf8`: the identity on well-formed UTF-8 byte
vectors (a Rust `String` is its byte vector), an error otherwise. -/
def string_from_utf8 (bs : List Nat) : Except Unit (List Nat) :=
  if validUTF8 bs then .ok bs else .error ()

@[simp] theorem readExact_eq_ok {bs : List Nat} {n : Nat} (h : n ≤ bs.length) :
    readExact bs n = .ok (bs.take n, bs.drop n) := by
  simp [readExact, h]

@[simp] theorem readU32_eq_ok {bs : List Nat} (h : 4 ≤ bs.length) :
    readU32 bs = .ok (decodeLE (bs.take 4), bs.drop 4) := by
  simp [readU32, h]

@[simp] theorem readU64_eq_ok {bs : List Nat} (h : 8 ≤ bs.length) :
    readU64 bs = .ok (decodeLE (bs.take 8), bs.drop 8) := by
  simp [readU64, h]

/-! ## Association lists modelling `HashMap` -/

/-- Lookup of the first entry with the given key (for the unique keys a
`HashMap` guarantees, the only entry). -/
def lookupA {β : Type} (k : List Nat) (m : List (List Nat × β)) : Option β :=
  (m.find? (fun p => p.1 == k)).map (·.2)

/-- Model of `HashMap::contains_key` / `entry(..)` hitting an occupied
entry. -/
def containsA {β : Type} (k : List Nat) (m : List (List Nat × β)) : Bool :=
  m.any (fun p => p.1 == k)

/-- Replace the value of the first entry with key `k` by `f` applied to
it. Models in-place mutation of an occupied `HashMap` entry. -/
def updateA {β : Type} (k : List Nat) (f : β → β) :
    List (List Nat × β) → List (List Nat × β)
  | [] => []
  | p :: rest =>
      if p.1 == k then (p.1, f p.2) :: rest else p :: updateA k f rest

/-- Model of `HashMap::insert`: the new binding shadows any previous one
(the model prepends; `lookupA` takes the first match). -/
def insertA {β : Type} (m : List (List Nat × β)) (k : List Nat) (v : β) :
    List (List Nat × β) :=
  (k, v) :: m

/-- Remove every entry with key `k`; models `fs::remove_file` on the
association-list file system. -/
def removeA {β : Type} (k : List Nat) (m : List (List Nat × β)) :
    List (List Nat × β) :=
  m.filter (fun p => !(p.1 == k))

/-! ## Tokenizer and in-memory index builder (src/index.rs) -/

/-- Model of Rust `str::split` with a character predicate: separators
are removed, fragments between consecutive separators (and at the two
ends) are kept, including empty ones. `"".split(p)` yields `[""]`. -/
def splitP (p : Char → Bool) : List Char → List (List Char)
  | [] => [[]]
  | c :: cs =>
      if p c then [] :: splitP p cs
      else (splitP p cs).modifyHead (c :: ·)

/-- Model of `tokenize` (src/index.rs lines 15-19): split on any
non-alphanumeric character, then drop the empty fragments. Rust
`char::is_alphanumeric` is Unicode-aware; the model uses the ASCII
alphanumeric class (`Char.isAlphanum`), on which the two agree — every
text appearing in the claims is ASCII. -/
def tokenize (text : List Char) : List (List Char) :=
  (splitP (fun ch => !ch.isAlphanum) text).filter (fun word => !word.isEmpty)

/-- Bytes of a token, as `token.to_string()` has them: on the ASCII
fragment accepted by the tokenizer model every char is one UTF-8 byte. -/
def tokenBytes (word : List Char) : List Nat := word.map Char.toNat

/-- Bytes of an ASCII string literal, for stating claims. -/
def strBytes (s : String) : List Nat := s.data.map Char.toNat

/-- Model of `InMemoryIndex`: `map` is the `HashMap<String, Vec<Hit>>`
as an association list (term bytes, hit list); a `Hit` is a raw byte
buffer (`Vec<u8>`). -/
structure InMemoryIndex where
  word_count : Nat
  map : List (List Nat × List (List Nat))
deriving DecidableEq, Repr

/-- Model of `InMemoryIndex::new`. -/
def InMemoryIndex.new : InMemoryIndex := { word_count := 0, map := [] }

/-- Model of `InMemoryIndex::is_empty`. -/
def InMemoryIndex.is_empty (self : InMemoryIndex) : Bool :=
  self.word_count == 0

/-- Model of `InMemoryIndex::is_large` with its fixed threshold. -/
def InMemoryIndex.is_large (self : InMemoryIndex) : Bool :=
  self.word_count > 100000000

/-- One loop iteration of `from_single_document` for token `tok` at
position `i`: look up or create the Hit vector for the term (a fresh
entry holds one Hit of the document hash followed by a zeroed
little-endian count field), append `i as u32` to the first Hit, then
patch the count field at bytes `[32..36)` in place with count + 1.
`encodeLE 4 i` keeps the low 4 bytes of `i`, which is the `as u32`
cast. -/
def builderStep (document_hash : List Nat) (index : InMemoryIndex)
    (it : Nat × List Char) : InMemoryIndex :=
  let key := tokenBytes it.2
  let map1 :=
    if containsA key index.map then index.map
    else index.map ++ [(key, [document_hash ++ encodeLE 4 0])]
  let map2 := updateA key
    (fun hits => hits.modifyHead (fun h =>
      let h2 := h ++ encodeLE 4 it.1
      h2.take HASH_LENGTH ++
        encodeLE 4 (decodeLE ((h2.drop HASH_LENGTH).take 4) + 1) ++
        h2.drop (HASH_LENGTH + 4))) map1
  { word_count := index.word_count + 1, map := map2 }

/-- Model of `InMemoryIndex::from_single_document`: lowercase the text
(per-char `Char.toLower`, which agrees with Rust `to_lowercase` on
ASCII), tokenize, then fold `builderStep` over the enumerated tokens. -/
def from_single_document (document_hash : List Nat) (text : List Char) :
    InMemoryIndex :=
  let lowered := text.map Char.toLower
  let tokens := tokenize lowered
  tokens.enum.foldl (builderStep document_hash) InMemoryIndex.new

/-- Model of `InMemoryIndex::merge`: for each entry of `other`, extend
the existing hit vector (`entry(term).or_insert_with(vec![]).extend`)
or add the entry with exactly the incoming hits; word counts add. -/
def InMemoryIndex.merge (self other : InMemoryIndex) : InMemoryIndex :=
  { word_count := self.word_count + other.word_count,
    map := other.map.foldl (fun m e =>
      if containsA e.1 m then updateA e.1 (fun hits => hits ++ e.2) m
      else m ++ [e]) self.map }

/-! ## Index file writer (src/write.rs) -/

/-- Model of `IndexFileWriter`: the bytes written to the file so far
(the header placeholder included), the running byte offset, and the
in-memory table-of-contents buffer. -/
structure IndexFileWriter where
  offset : Nat
  file : List Nat
  contents_buf : List Nat
deriving DecidableEq, Repr

/-- Model of `IndexFileWriter::new`: write an 8-byte zero header, start
counting at `HEADER_SIZE = 8`. -/
def IndexFileWriter.new : IndexFileWriter :=
  { offset := 8, file := encodeLE 8 0, contents_buf := [] }

/-- Model of `IndexFileWriter::write_data`. -/
def IndexFileWriter.write_data (self : IndexFileWriter) (buf : List Nat) :
    IndexFileWriter :=
  { self with file := self.file ++ buf, offset := self.offset + buf.length }

/-- Model of `IndexFileWriter::write_contents_entry`: append
`u64 offset, u64 nbytes, u32 doc_count, u32 term_len, term bytes` to the
table-of-contents buffer (`term.bytes().len() as u32` is the length
cast). -/
def IndexFileWriter.write_contents_entry (self : IndexFileWriter)
    (term : List Nat) (doc_count offset nbytes : Nat) : IndexFileWriter :=
  { self with contents_buf :=
      self.contents_buf ++ encodeLE 8 offset ++ encodeLE 8 nbytes ++
        encodeLE 4 doc_count ++ encodeLE 4 (term.length % 2 ^ 32) ++ term }

/-- Model of `IndexFileWriter::finish`: append the table of contents
after the data, then seek back to position 0 and overwrite the 8 header
bytes with the offset at which the table starts. The result is the final
contents of the file. -/
def IndexFileWriter.finish (self : IndexFileWriter) : List Nat :=
  encodeLE 8 self.offset ++ (self.file ++ self.contents_buf).drop 8

/-- Byte-lexicographic order on terms: Rust `String` comparison (used by
`sort_by` with `a.cmp(b)`) compares UTF-8 bytes lexicographically. -/
def termLe : List Nat → List Nat → Bool
  | [], _ => true
  | _ :: _, [] => false
  | x :: xs, y :: ys =>
      if x < y then true else if y < x then false else termLe xs ys

/-- Model of `write_index_to_tmp_file` minus the temporary-file
allocation: sort the index entries by term, then for each term write all
of its Hit buffers back to back and record a table-of-contents entry for
the byte range just written (`hits.len() as u32` is the document count),
then finish. Returns the final file contents. -/
def write_index_to_tmp_file (index : InMemoryIndex) : List Nat :=
  let index_as_vec := index.map.mergeSort (fun a b => termLe a.1 b.1)
  let w := index_as_vec.foldl (fun w e =>
    let doc_count := e.2.length % 2 ^ 32
    let start := w.offset
    let w2 := e.2.foldl (fun w buffer => w.write_data buffer) w
    w2.write_contents_entry e.1 doc_count start (w2.offset - start))
    IndexFileWriter.new
  w.finish

/-! ## Index file readers (src/read.rs) -/

/-- Decoded per-term entry: `HashMap<Doc, Offsets>` as an association
list from the 32-byte document hash to the offset list. -/
abbrev DocEntry := List (List Nat × List Nat)

/-- Model of `ParsedIndex` (src/index.rs): the full-decode result. -/
structure ParsedIndex where
  word_count : Nat
  map : List (List Nat × DocEntry)
deriving DecidableEq, Repr

/-- Model of `read::Entry`, one table-of-contents record. -/
structure Entry where
  term : List Nat
  doc_count : Nat
  offset : Nat
  nbytes : Nat
deriving DecidableEq, Repr

/-- Outcome of running a function that can return normally, return an
`io::Error`, or panic. A panic (`unwrap` / `expect`) is not an error
return: it aborts the process. -/
inductive RunResult (α : Type) where
  | ok : α → RunResult α
  | err : IOError → RunResult α
  | panicked : String → RunResult α
deriving DecidableEq, Repr

/-- Model of `IndexFileReader::read_entry`: `UnexpectedEof` on the very
first field is the normal end of the table (`Ok(None)`); any error on a
later field propagates; term bytes that are not valid UTF-8 become
`io::Error::new(Other, "Unicode fail")`. Returns the entry (if any) and
the rest of the table stream. -/
def read_entry (f : List Nat) : Except IOError (Option Entry × List Nat) :=
  match readU64 f with
  | .error e =>
      if e = .unexpectedEof then .ok (none, f) else .error e
  | .ok (offset, f1) =>
  match readU64 f1 with
  | .error e => .error e
  | .ok (nbytes, f2) =>
  match readU32 f2 with
  | .error e => .error e
  | .ok (doc_count, f3) =>
  match readU32 f3 with
  | .error e => .error e
  | .ok (term_len, f4) =>
  match readExact f4 term_len with
  | .error e => .error e
  | .ok (bytes, f5) =>
  match string_from_utf8 bytes with
  | .error _ => .error (.other "Unicode fail")
  | .ok term => .ok (some ⟨term, doc_count, offset, nbytes⟩, f5)

/-- Outcome of the table-of-contents record reads at the top of the
`get_index_from_file` loop (src/read.rs lines 138-159). -/
inductive TocRead where
  /-- `UnexpectedEof` on the first field: `break`, the normal end. -/
  | endOfToc : TocRead
  /-- Another error kind on the first field: the code panics with
  "Wrong table format". Unreachable on in-memory bytes, kept for
  faithfulness to the match in the source. -/
  | badFormat : TocRead
  /-- An error on a later field, propagated to the caller by `?`. -/
  | ioError : IOError → TocRead
  /-- Term bytes that are not UTF-8: `String::from_utf8(term).unwrap()`
  panics. -/
  | unicodePanic : TocRead
  /-- A full record: offset, nbytes, doc_count, term bytes, rest of the
  table stream. -/
  | record : Nat → Nat → Nat → List Nat → List Nat → TocRead
deriving DecidableEq, Repr

/-- Read one table-of-contents record for `get_index_from_file`. -/
def readTocRecord (table : List Nat) : TocRead :=
  match readU64 table with
  | .error .unexpectedEof => .endOfToc
  | .error _ => .badFormat
  | .ok (offset, t1) =>
  match readU64 t1 with
  | .error e => .ioError e
  | .ok (nbytes, t2) =>
  match readU32 t2 with
  | .error e => .ioError e
  | .ok (doc_count, t3) =>
  match readU32 t3 with
  | .error e => .ioError e
  | .ok (term_length, t4) =>
  match readExact t4 term_length with
  | .error e => .ioError e
  | .ok (bytes, t5) =>
  match string_from_utf8 bytes with
  | .error _ => .unicodePanic
  | .ok term => .record offset nbytes doc_count term t5

theorem readU64_ok_length {bs : List Nat} {v : Nat} {r : List Nat}
    (h : readU64 bs = .ok (v, r)) : r.length + 8 = bs.length := by
  unfold readU64 at h
  split at h
  · injection h with h2
    injection h2 with h3 h4
    subst h4
    simp only [List.length_drop]
    omega
  · exact Except.noConfusion h

theorem readU32_ok_length {bs : List Nat} {v : Nat} {r : List Nat}
    (h : readU32 bs = .ok (v, r)) : r.length + 4 = bs.length := by
  unfold readU32 at h
  split at h
  · injection h with h2
    injection h2 with h3 h4
    subst h4
    simp only [List.length_drop]
    omega
  · exact Except.noConfusion h

theorem readExact_ok_length {bs : List Nat} {n : Nat} {x r : List Nat}
    (h : readExact bs n = .ok (x, r)) : r.length + n = bs.length := by
  unfold readExact at h
  split at h
  · injection h with h2
    injection h2 with h3 h4
    subst h4
    simp only [List.length_drop]
    omega
  · exact Except.noConfusion h

theorem readTocRecord_record_length {table : List Nat}
    {o n d : Nat} {t rest : List Nat}
    (h : readTocRecord table = .record o n d t rest) :
    rest.length < table.length := by
  unfold readTocRecord at h
  split at h
  · exact TocRead.noConfusion h
  · exact TocRead.noConfusion h
  rename_i offset t1 h1
  split at h
  · exact TocRead.noConfusion h
  rename_i nbytes t2 h2
  split at h
  · exact TocRead.noConfusion h
  rename_i doc_count t3 h3
  split at h
  · exact TocRead.noConfusion h
  rename_i term_length t4 h4
  split at h
  · exact TocRead.noConfusion h
  rename_i bytes t5 h5
  split at h
  · exact TocRead.noConfusion h
  injection h with e1 e2 e3 e4 e5
  subst e5
  have l1 := readU64_ok_length h1
  have l2 := readU64_ok_length h2
  have l3 := readU32_ok_length h3
  have l4 := readU32_ok_length h4
  have l5 := readExact_ok_length h5
  omega

/-- Read the little-endian `u32` offsets of one Hit
(src/read.rs lines 186-189). -/
def readOffsetsLoop : List Nat → Nat → Except IOError (List Nat × List Nat)
  | bs, 0 => .ok ([], bs)
  | bs, k + 1 =>
      match readU32 bs with
      | .error e => .error e
      | .ok (w, r) =>
          match readOffsetsLoop r k with
          | .error e => .error e
          | .ok (ws, r2) => .ok (w :: ws, r2)

/-- Decode `doc_count` Hits out of the raw data slice
(src/read.rs lines 175-192): per Hit, a 32-byte hash, a `u32` offset
count, then that many `u32` offsets; each document is inserted into the
entry map. Leftover bytes are ignored, matching the loop bound. -/
def parseHitsLoop : List Nat → Nat → DocEntry → Except IOError DocEntry
  | _, 0, entry => .ok entry
  | bs, k + 1, entry =>
      match readExact bs HASH_LENGTH with
      | .error e => .error e
      | .ok (hash, r1) =>
      match readU32 r1 with
      | .error e => .error e
      | .ok (offsets_count, r2) =>
      match readOffsetsLoop r2 offsets_count with
      | .error e => .error e
      | .ok (offsets, r3) => parseHitsLoop r3 k (insertA entry hash offsets)

/-- The `loop` of `get_index_from_file`: read a table record, seek the
data cursor to its byte range and read it, decode the Hits, accumulate
the term entry and one word-count increment, and continue until the
table ends. -/
def tocLoop (file : List Nat) (table : List Nat)
    (map : List (List Nat × DocEntry)) (word_count : Nat) :
    RunResult ParsedIndex :=
  match h : readTocRecord table with
  | .endOfToc => .ok ⟨word_count, map⟩
  | .badFormat => .panicked "Wrong table format"
  | .ioError e => .err e
  | .unicodePanic => .panicked "byte vector is not valid UTF-8"
  | .record offset nbytes doc_count term rest =>
      match readExactAt file offset nbytes with
      | .error e => .err e
      | .ok hits_raw =>
          match parseHitsLoop hits_raw doc_count [] with
          | .error e => .err e
          | .ok entry =>
              tocLoop file rest (insertA map term entry) (word_count + 1)
termination_by table.length
decreasing_by exact readTocRecord_record_length h

/-- Model of `IndexFileReader::get_index_from_file`: read the header
`u64` giving the table-of-contents offset, seek the second cursor there,
and run the decode loop with an empty map and a zero word count. -/
def get_index_from_file (file : List Nat) : RunResult ParsedIndex :=
  match readU64 file with
  | .error e => .err e
  | .ok (table_contents_offset, _) =>
      tocLoop file (file.drop table_contents_offset) [] 0

/-- Model of `IndexFileReader`: the data cursor (positioned right after
the 8 header bytes), the table-of-contents cursor, and the one entry
read ahead. -/
structure IndexFileReader where
  data : List Nat
  table_of_contents : List Nat
  next : Option Entry
deriving DecidableEq, Repr

/-- An in-memory directory: file name bytes to file contents. -/
abbrev FileSys := List (List Nat × List Nat)

/-- Model of `IndexFileReader::open_and_delete`: open the file, read the
header `u64`, seek a second cursor to the table of contents, read the
first entry ahead, and only then remove the file. The returned pair is
the call result and the directory after the call, so the deletion
behaviour is visible on every path. -/
def open_and_delete (fs : FileSys) (filename : List Nat) :
    Except IOError IndexFileReader × FileSys :=
  match lookupA filename fs with
  | none => (.error .notFound, fs)
  | some contents =>
  match readU64 contents with
  | .error e => (.error e, fs)
  | .ok (table_contents_offset, data_rest) =>
  match read_entry (contents.drop table_contents_offset) with
  | .error e => (.error e, fs)
  | .ok (first, table_rest) =>
      (.ok ⟨data_rest, table_rest, first⟩, removeA filename fs)

/-! ## Temporary file allocator (src/tmp.rs) -/

/-- Lower-case hexadecimal digit, as `format` with the `x` specifier
prints. -/
def hexDigit (n : Nat) : Char :=
  if n < 10 then Char.ofNat (48 + n) else Char.ofNat (87 + n)

/-- Hexadecimal digits of `n`, most significant first. -/
def toHex (n : Nat) : List Char :=
  if h : n < 16 then [hexDigit n] else toHex (n / 16) ++ [hexDigit (n % 16)]
termination_by n
decreasing_by exact Nat.div_lt_self (by omega) (by omega)

/-- Fixed-width zero padding: `format` with `{:08x}` pads the hex form
on the left with zeros to at least 8 characters. -/
def pad8 (s : List Char) : List Char :=
  List.replicate (8 - s.length) '0' ++ s

/-- The filename `tmp{:08x}.dat` formatted from counter value `n`,
joined onto the directory. -/
def tmpName (dir : List Char) (n : Nat) : List Char :=
  dir ++ '/' :: ('t' :: 'm' :: 'p' :: pad8 (toHex n)) ++
    ('.' :: 'd' :: 'a' :: 't' :: [])

/-- Model of `TmpDir`: the directory and the name counter. -/
structure TmpDir where
  dir : List Char
  n : Nat
deriving DecidableEq, Repr

/-- Model of `TmpDir::new`: the counter starts at 1. -/
def TmpDir.new (dir : List Char) : TmpDir := { dir := dir, n := 1 }

/-- The retry loop of `TmpDir::create`. Each attempt formats the name
from the current counter and advances the counter, succeeded or not; an
exclusive create fails exactly when the name already exists in the
directory; on failure the loop retries while `retry < 10`, else reports
the creation error. Returns the result together with the final counter.
The directory snapshot `fs` lists the names present during this call
(externally created files included). -/
def createLoop (dir : List Char) (fs : List (List Char)) (n retry : Nat) :
    Except IOError (List Char) × Nat :=
  let filename := tmpName dir n
  if filename ∈ fs then
    if retry < 10 then createLoop dir fs (n + 1) (retry + 1)
    else (.error .alreadyExists, n + 1)
  else (.ok filename, n + 1)
termination_by 10 - retry

/-- Model of `TmpDir::create`: run the retry loop from the current
counter with `retry = 1`; a successful exclusive create adds the new
name to the directory. -/
def TmpDir.create (self : TmpDir) (fs : List (List Char)) :
    Except IOError (List Char) × TmpDir × List (List Char) :=
  match createLoop self.dir fs self.n 1 with
  | (.ok filename, n2) => (.ok filename, ⟨self.dir, n2⟩, filename :: fs)
  | (.error e, n2) => (.error e, ⟨self.dir, n2⟩, fs)

/-! ## Hit record structure

A well-formed Hit is `hash(32) ++ u32 count ++ count × u32 offsets`; the
projections below read those fields back out of the raw buffer exactly
the way the decoder does. -/

/-- The canonical Hit buffer for a document hash and offset list. -/
def encodeHit (hash : List Nat) (offs : List Nat) : List Nat :=
  hash ++ encodeLE 4 offs.length ++ (offs.map (encodeLE 4)).flatten

/-- The document hash stored in a Hit buffer (bytes `[0..32)`). -/
def hitDocHash (h : List Nat) : List Nat := h.take HASH_LENGTH

/-- The occurrence count stored in a Hit buffer (little-endian `u32` at
bytes `[32..36)`). -/
def hitCount (h : List Nat) : Nat := decodeLE ((h.drop HASH_LENGTH).take 4)

/-- Split a byte list into little-endian `u32` values, 4 bytes each;
trailing bytes that do not fill a group are ignored. -/
def decodeChunks4 (bs : List Nat) : List Nat :=
  if h : bs.length < 4 then []
  else decodeLE (bs.take 4) :: decodeChunks4 (bs.drop 4)
termination_by bs.length
decreasing_by simp only [List.length_drop]; omega

/-- The offsets stored in a Hit buffer (bytes from 36 on, in 4-byte
little-endian groups). -/
def hitOffsets (h : List Nat) : List Nat := decodeChunks4 (h.drop 36)

/-- A raw byte buffer is a structurally well-formed Hit: at least the
fixed 36-byte prefix, and exactly as many offset bytes as the stored
count announces. -/
def WfHit (h : List Nat) : Prop :=
  36 ≤ h.length ∧ h.length = 36 + 4 * hitCount h

instance (h : List Nat) : Decidable (WfHit h) :=
  inferInstanceAs (Decidable (_ ∧ _))

/-! ## Tokenizer: split-and-filter equals maximal-alphanumeric-runs -/

/-- Tokenization as the specification words it: the tokens are the
maximal runs of alphanumeric characters of the text, in order,
non-alphanumeric characters acting purely as separators. -/
def tokenizeSpec : List Char → List (List Char)
  | [] => []
  | c :: cs =>
      if c.isAlphanum then
        (c :: cs.takeWhile Char.isAlphanum) ::
          tokenizeSpec (cs.dropWhile Char.isAlphanum)
      else tokenizeSpec cs
termination_by text => text.length
decreasing_by
  · simp only [List.length_cons]
    exact Nat.lt_succ_of_le (List.Sublist.length_le (List.dropWhile_sublist _))
  · simp

/-! ## Builder fold invariant -/

/-- The occurrence positions of term `t` among enumerated tokens (the
`% 2^32` is the `i as u32` cast the builder stores). -/
def occPos (t : List Nat) (l : List (Nat × List Char)) : List Nat :=
  (l.filter (fun it => tokenBytes it.2 == t)).map (fun it => it.1 % 2 ^ 32)

/-! ## Writer closed form

The writer fold is evaluated into header / data region / table region,
the shape the layout claim and the round-trip proof both need. -/

/-- The data-region bytes an entry list produces: each term's Hit
buffers, concatenated, term after term. -/
def dataBytes (es : List (List Nat × List (List Nat))) : List Nat :=
  (es.map (fun e => e.2.flatten)).flatten

/-- The table-of-contents record for one entry whose data starts at
absolute offset `pos`. -/
def tocEntryBytes (pos : Nat) (e : List Nat × List (List Nat)) : List Nat :=
  encodeLE 8 pos ++ encodeLE 8 e.2.flatten.length ++
    encodeLE 4 (e.2.length % 2 ^ 32) ++ encodeLE 4 (e.1.length % 2 ^ 32) ++ e.1

/-- The table-of-contents bytes for an entry list whose data region
starts at absolute offset `pos`. -/
def tocBytesFrom (pos : Nat) : List (List Nat × List (List Nat)) → List Nat
  | [] => []
  | e :: rest =>
      tocEntryBytes pos e ++ tocBytesFrom (pos + e.2.flatten.length) rest

/-- The entry-writing step of `write_index_to_tmp_file`, named so the
fold can be reasoned about. -/
def writeEntry (w : IndexFileWriter) (e : List Nat × List (List Nat)) :
    IndexFileWriter :=
  let doc_count := e.2.length % 2 ^ 32
  let start := w.offset
  let w2 := e.2.foldl (fun w buffer => w.write_data buffer) w
  w2.write_contents_entry e.1 doc_count start (w2.offset - start)

/-- The document-entry accumulation the Hit decode loop performs. -/
def decodedEntry (hits : List (List Nat)) : DocEntry :=
  hits.foldl (fun e h => insertA e (hitDocHash h) (hitOffsets h)) []

/-- A one-term index used to witness the codec claims. -/
def sampleIndex : InMemoryIndex :=
  { word_count := 1,
    map := [(strBytes "a", [encodeHit (List.replicate 32 0) [0]])] }

/-! ## Temporary file names are injective in the counter -/

/-- The numeric value of a lower-case hex digit character. -/
def hexVal (c : Char) : Nat :=
  if c.toNat ≤ 57 then c.toNat - 48 else c.toNat - 87

/-- Read a hex digit string back into a number. -/
def decodeHex (s : List Char) : Nat :=
  s.foldl (fun a c => 16 * a + hexVal c) 0

/-- One `create` call per element of `fss`, each call seeing that
snapshot of the directory; `none` when any call fails. Returns the
allocated names and the final allocator state. -/
def createSeq : TmpDir → List (List (List Char)) →
    Option (List (List Char) × TmpDir)
  | t, [] => some ([], t)
  | t, fs :: rest =>
      match t.create fs with
      | (.ok fname, t2, _) =>
          match createSeq t2 rest with
          | some (names, tf) => some (fname :: names, tf)
          | none => none
      | (.error _, _, _) => none

/-! ## Theorems -/

@[simp] theorem encodeLE_length (w n : Nat) : (encodeLE w n).length = w := by
  induction w generalizing n with
  | zero => rfl
  | succ w ih => simp [encodeLE, ih]

@[simp] theorem decodeLE_nil : decodeLE [] = 0 := rfl

@[simp] theorem decodeLE_cons (b : Nat) (bs : List Nat) :
    decodeLE (b :: bs) = b + 256 * decodeLE bs := rfl

theorem decodeLE_encodeLE (w n : Nat) : decodeLE (encodeLE w n) = n % 256 ^ w := by
  induction w generalizing n with
  | zero => simp [encodeLE, Nat.mod_one]
  | succ w ih =>
      simp only [encodeLE, decodeLE_cons, ih]
      rw [Nat.pow_succ, Nat.mul_comm (256 ^ w) 256,
        ← Nat.mod_mul_right_div_self n 256 (256 ^ w),
        ← Nat.mod_mod_of_dvd n (dvd_mul_right 256 (256 ^ w))]
      omega

theorem decodeLE_encodeLE_of_lt {w n : Nat} (h : n < 256 ^ w) :
    decodeLE (encodeLE w n) = n := by
  rw [decodeLE_encodeLE, Nat.mod_eq_of_lt h]

/-- Encoding only depends on the value modulo `256^w`. -/
theorem encodeLE_mod (w n : Nat) : encodeLE w (n % 256 ^ w) = encodeLE w n := by
  induction w generalizing n with
  | zero => rfl
  | succ w ih =>
      simp only [encodeLE, List.cons.injEq]
      refine ⟨Nat.mod_mod_of_dvd n (dvd_pow_self 256 (Nat.succ_ne_zero w)), ?_⟩
      rw [Nat.pow_succ, Nat.mul_comm (256 ^ w) 256, Nat.mod_mul_right_div_self, ih]

theorem encodeLE_bytes_lt (w n : Nat) : ∀ b ∈ encodeLE w n, b < 256 := by
  induction w generalizing n with
  | zero => simp [encodeLE]
  | succ w ih =>
      intro b hb
      simp only [encodeLE, List.mem_cons] at hb
      rcases hb with h | h
      · omega
      · exact ih _ _ h

/-- ASCII byte lists (all bytes below 0x80) are valid UTF-8; terms
produced by the tokenizer model are of this shape. -/
theorem validUTF8_of_ascii : ∀ bs : List Nat, (∀ b ∈ bs, b ≤ 0x7F) →
    validUTF8 bs = true
  | [], _ => rfl
  | b :: rest, h => by
      have hb : b ≤ 0x7F := h b (List.mem_cons_self b rest)
      have ih := validUTF8_of_ascii rest
        fun x hx => h x (List.mem_cons_of_mem b hx)
      simp only [validUTF8, validUTF8Aux, if_pos hb] at ih ⊢
      exact ih

@[simp] theorem lookupA_nil {β : Type} (k : List Nat) :
    lookupA (β := β) k [] = none := rfl

@[simp] theorem lookupA_cons {β : Type} (k : List Nat) (p : List Nat × β)
    (m : List (List Nat × β)) :
    lookupA k (p :: m) = if p.1 == k then some p.2 else lookupA k m := by
  simp only [lookupA, List.find?]
  cases h : (p.1 == k) <;> simp [h]

@[simp] theorem lookupA_insertA {β : Type} (m : List (List Nat × β))
    (k k2 : List Nat) (v : β) :
    lookupA k2 (insertA m k v) = if k == k2 then some v else lookupA k2 m := by
  simp [insertA]

@[simp] theorem containsA_nil {β : Type} (k : List Nat) :
    containsA (β := β) k [] = false := rfl

@[simp] theorem containsA_cons {β : Type} (k : List Nat) (p : List Nat × β)
    (m : List (List Nat × β)) :
    containsA k (p :: m) = (p.1 == k || containsA k m) := by
  simp [containsA]

theorem containsA_eq_isSome_lookupA {β : Type} (k : List Nat)
    (m : List (List Nat × β)) : containsA k m = (lookupA k m).isSome := by
  induction m with
  | nil => rfl
  | cons p rest ih =>
      simp only [containsA, List.any_cons, lookupA_cons] at *
      cases h : (p.1 == k) <;> simp [h, ih]

theorem flatten_map_encodeLE4_length (l : List Nat) :
    ((l.map (encodeLE 4)).flatten).length = 4 * l.length := by
  induction l with
  | nil => simp
  | cons x xs ih => simp [ih]; try omega

@[simp] theorem encodeHit_length (hash offs : List Nat)
    (hh : hash.length = HASH_LENGTH) :
    (encodeHit hash offs).length = 36 + 4 * offs.length := by
  simp only [encodeHit, List.length_append, hh, encodeLE_length,
    flatten_map_encodeLE4_length, HASH_LENGTH]
  try omega

theorem hitDocHash_encodeHit (hash offs : List Nat)
    (hh : hash.length = HASH_LENGTH) : hitDocHash (encodeHit hash offs) = hash := by
  simp only [hitDocHash, encodeHit, List.append_assoc]
  exact List.take_left' hh

theorem drop32_encodeHit (hash offs : List Nat)
    (hh : hash.length = HASH_LENGTH) :
    (encodeHit hash offs).drop HASH_LENGTH
      = encodeLE 4 offs.length ++ (offs.map (encodeLE 4)).flatten := by
  simp only [encodeHit, List.append_assoc]
  exact List.drop_left' hh

theorem hitCount_encodeHit (hash offs : List Nat)
    (hh : hash.length = HASH_LENGTH) (hlen : offs.length < 2 ^ 32) :
    hitCount (encodeHit hash offs) = offs.length := by
  simp only [hitCount, drop32_encodeHit hash offs hh]
  rw [List.take_left' (encodeLE_length 4 offs.length)]
  exact decodeLE_encodeLE_of_lt (by norm_num; omega)

theorem drop36_encodeHit (hash offs : List Nat)
    (hh : hash.length = HASH_LENGTH) :
    (encodeHit hash offs).drop 36 = (offs.map (encodeLE 4)).flatten := by
  have h36 : (36 : Nat) = HASH_LENGTH + 4 := rfl
  rw [h36, ← List.drop_drop, drop32_encodeHit hash offs hh]
  exact List.drop_left' (encodeLE_length 4 offs.length)

theorem decodeChunks4_flatten (offs : List Nat) :
    decodeChunks4 ((offs.map (encodeLE 4)).flatten) = offs.map (· % 2 ^ 32) := by
  induction offs with
  | nil => simp [decodeChunks4]
  | cons o rest ih =>
      rw [List.map_cons, List.flatten_cons, decodeChunks4]
      have hlen : (encodeLE 4 o ++ (rest.map (encodeLE 4)).flatten).length ≥ 4 := by
        simp [List.length_append]
      rw [dif_neg (by omega)]
      rw [List.take_left' (encodeLE_length 4 o),
        List.drop_left' (encodeLE_length 4 o), ih, decodeLE_encodeLE]
      norm_num

theorem hitOffsets_encodeHit (hash offs : List Nat)
    (hh : hash.length = HASH_LENGTH) (hoffs : ∀ o ∈ offs, o < 2 ^ 32) :
    hitOffsets (encodeHit hash offs) = offs := by
  rw [hitOffsets, drop36_encodeHit hash offs hh, decodeChunks4_flatten]
  rw [List.map_congr_left fun o ho => Nat.mod_eq_of_lt (hoffs o ho)]
  exact List.map_id offs

theorem WfHit_encodeHit (hash offs : List Nat)
    (hh : hash.length = HASH_LENGTH) (hlen : offs.length < 2 ^ 32) :
    WfHit (encodeHit hash offs) := by
  constructor
  · rw [encodeHit_length hash offs hh]; omega
  · rw [encodeHit_length hash offs hh, hitCount_encodeHit hash offs hh hlen]

/-- The one mutation `from_single_document` performs on a well-formed
Hit buffer: appending offset `i` and patching the count field yields the
canonical buffer with `i % 2^32` appended to the offsets. -/
theorem builderHitStep (hash offs : List Nat) (i : Nat)
    (hh : hash.length = HASH_LENGTH) (hlen : offs.length < 2 ^ 32) :
    (encodeHit hash offs ++ encodeLE 4 i).take HASH_LENGTH ++
      encodeLE 4
        (decodeLE (((encodeHit hash offs ++ encodeLE 4 i).drop
          HASH_LENGTH).take 4) + 1) ++
      (encodeHit hash offs ++ encodeLE 4 i).drop (HASH_LENGTH + 4)
      = encodeHit hash (offs ++ [i % 2 ^ 32]) := by
  have htake : (encodeHit hash offs ++ encodeLE 4 i).take HASH_LENGTH = hash := by
    simp only [encodeHit, List.append_assoc]
    exact List.take_left' hh
  have hdrop : (encodeHit hash offs ++ encodeLE 4 i).drop HASH_LENGTH
      = encodeLE 4 offs.length ++
          ((offs.map (encodeLE 4)).flatten ++ encodeLE 4 i) := by
    simp only [encodeHit, List.append_assoc]
    exact List.drop_left' hh
  have hdrop36 : (encodeHit hash offs ++ encodeLE 4 i).drop (HASH_LENGTH + 4)
      = (offs.map (encodeLE 4)).flatten ++ encodeLE 4 i := by
    rw [← List.drop_drop, hdrop,
      List.drop_left' (encodeLE_length 4 offs.length)]
  have hcount : decodeLE (((encodeHit hash offs ++ encodeLE 4 i).drop
      HASH_LENGTH).take 4) = offs.length := by
    rw [hdrop, List.take_left' (encodeLE_length 4 offs.length),
      decodeLE_encodeLE]
    exact Nat.mod_eq_of_lt (by norm_num; omega)
  rw [htake, hcount, hdrop36]
  have epow : (2 : Nat) ^ 32 = 256 ^ 4 := by norm_num
  rw [epow]
  simp only [encodeHit, List.map_append, List.map_cons, List.map_nil,
    List.flatten_append, List.flatten_cons, List.flatten_nil,
    List.append_nil, List.length_append, List.length_singleton,
    encodeLE_mod 4 i]
  try simp [List.append_assoc]

theorem dropWhile_head_false {α : Type} {p : α → Bool} {l : List α}
    {d : α} {ds : List α} (h : l.dropWhile p = d :: ds) : p d = false := by
  induction l with
  | nil => simp at h
  | cons a l ih =>
      rw [List.dropWhile_cons] at h
      split at h
      · exact ih h
      · rename_i hpa
        injection h with h1 h2
        subst h1
        simpa using hpa

theorem splitP_decomp (p : Char → Bool) (cs : List Char) :
    splitP p cs = cs.takeWhile (fun a => !p a) ::
      (match cs.dropWhile (fun a => !p a) with
       | [] => []
       | _ :: ds => splitP p ds) := by
  induction cs with
  | nil => rfl
  | cons c cs ih =>
      by_cases hc : p c
      · simp [splitP, hc, List.takeWhile_cons, List.dropWhile_cons]
      · simp [splitP, hc, ih, List.takeWhile_cons, List.dropWhile_cons]

/-- The split-on-separators-then-drop-empties tokenizer of the source is
the maximal-runs tokenizer of the specification. -/
theorem tokenize_eq_tokenizeSpec (text : List Char) :
    tokenize text = tokenizeSpec text := by
  induction text using tokenizeSpec.induct with
  | case1 => simp [tokenize, splitP, tokenizeSpec]
  | case2 c cs hc ih =>
      rw [tokenizeSpec, if_pos hc, tokenize, splitP_decomp]
      simp only [Bool.not_not, List.takeWhile_cons, List.dropWhile_cons, hc,
        if_true, ite_true]
      rw [List.filter_cons]
      simp only [List.isEmpty_cons, Bool.not_false, if_true, ite_true]
      cases hdw : cs.dropWhile Char.isAlphanum with
      | nil =>
          congr 1
          simp [tokenizeSpec]
      | cons d ds =>
          have hd : d.isAlphanum = false := dropWhile_head_false hdw
          rw [hdw] at ih
          rw [tokenize, splitP, if_pos (by simp [hd])] at ih
          rw [List.filter_cons] at ih
          rw [if_neg (by simp)] at ih
          exact congrArg _ ih
  | case3 c cs hc ih =>
      rw [tokenizeSpec, if_neg hc, ← ih, tokenize, tokenize, splitP]
      rw [if_pos (by simpa using hc)]
      rw [List.filter_cons]
      simp

/-! ## Association-list laws used by the builder and merge proofs -/

theorem updateA_map_fst {β : Type} (k : List Nat) (f : β → β)
    (m : List (List Nat × β)) :
    (updateA k f m).map Prod.fst = m.map Prod.fst := by
  induction m with
  | nil => rfl
  | cons p rest ih =>
      rw [updateA]
      split
      · simp
      · simp [ih]

theorem lookupA_updateA_self {β : Type} (k : List Nat) (f : β → β)
    (m : List (List Nat × β)) :
    lookupA k (updateA k f m) = (lookupA k m).map f := by
  induction m with
  | nil => rfl
  | cons p rest ih =>
      rw [updateA]
      by_cases h : (p.1 == k)
      · simp [h]
      · simp only [Bool.not_eq_true] at h
        simp [h, ih]

theorem lookupA_updateA_ne {β : Type} {k t : List Nat} (f : β → β)
    (m : List (List Nat × β)) (hne : t ≠ k) :
    lookupA t (updateA k f m) = lookupA t m := by
  induction m with
  | nil => rfl
  | cons p rest ih =>
      rw [updateA]
      by_cases h : (p.1 == k)
      · have hpk : p.1 = k := by simpa using h
        have : ¬ (p.1 == t) = true := by simp [hpk]; exact fun hh => hne hh.symm
        simp only [Bool.not_eq_true] at this
        simp [h, lookupA_cons, this, hpk, Ne.symm hne]
      · simp only [Bool.not_eq_true] at h
        simp [h, lookupA_cons, ih]

theorem lookupA_append {β : Type} (t : List Nat)
    (m1 m2 : List (List Nat × β)) :
    lookupA t (m1 ++ m2) =
      match lookupA t m1 with
      | some v => some v
      | none => lookupA t m2 := by
  induction m1 with
  | nil => simp
  | cons p rest ih =>
      by_cases h : (p.1 == t)
      · simp [lookupA_cons, h]
      · simp only [Bool.not_eq_true] at h
        simp [lookupA_cons, h, ih]

theorem containsA_false_iff {β : Type} (t : List Nat)
    (m : List (List Nat × β)) :
    containsA t m = false ↔ t ∉ m.map Prod.fst := by
  induction m with
  | nil => simp
  | cons p rest ih =>
      simp only [containsA_cons, List.map_cons, List.mem_cons,
        Bool.or_eq_false_iff, ih]
      constructor
      · rintro ⟨h1, h2⟩ h
        rcases h with h | h
        · rw [h] at h1; simp at h1
        · exact h2 h
      · intro h
        constructor
        · by_cases hh : p.1 = t
          · exact absurd (Or.inl hh.symm) h
          · simpa using hh
        · intro hm
          exact h (Or.inr hm)

theorem mem_lookupA {β : Type} {t : List Nat} {v : β}
    {m : List (List Nat × β)} (hnd : (m.map Prod.fst).Nodup)
    (hmem : (t, v) ∈ m) : lookupA t m = some v := by
  induction m with
  | nil => simp at hmem
  | cons p rest ih =>
      rcases List.mem_cons.mp hmem with h | h
      · rw [← h]
        simp [lookupA_cons]
      · have hnd' := hnd
        rw [List.map_cons, List.nodup_cons] at hnd'
        have hnd2 : (rest.map Prod.fst).Nodup := hnd'.2
        have hpt : p.1 ≠ t := by
          intro he
          exact hnd'.1 (by rw [he]; exact List.mem_map.mpr ⟨(t, v), h, rfl⟩)
        have : ¬ (p.1 == t) = true := by simpa using hpt
        simp only [Bool.not_eq_true] at this
        simp [lookupA_cons, this, ih hnd2 h]

@[simp] theorem occPos_nil (t : List Nat) : occPos t [] = [] := rfl

theorem occPos_append (t : List Nat) (l1 l2 : List (Nat × List Char)) :
    occPos t (l1 ++ l2) = occPos t l1 ++ occPos t l2 := by
  simp [occPos]

theorem occPos_singleton (t : List Nat) (it : Nat × List Char) :
    occPos t [it] =
      if tokenBytes it.2 == t then [it.1 % 2 ^ 32] else [] := by
  by_cases h : (tokenBytes it.2 == t)
  · simp [occPos, List.filter, h]
  · simp only [Bool.not_eq_true] at h
    simp [occPos, List.filter, h]

theorem occPos_length_le (t : List Nat) (l : List (Nat × List Char)) :
    (occPos t l).length ≤ l.length := by
  simp only [occPos, List.length_map]
  exact List.length_filter_le _ _

@[simp] theorem encodeHit_nil (hash : List Nat) :
    encodeHit hash [] = hash ++ encodeLE 4 0 := by
  simp [encodeHit]

theorem containsA_true_iff {β : Type} (t : List Nat)
    (m : List (List Nat × β)) :
    containsA t m = true ↔ t ∈ m.map Prod.fst := by
  rcases hc : containsA t m with _ | _
  · simp only [Bool.false_eq_true, false_iff]
    exact (containsA_false_iff t m).mp hc
  · simp only [true_iff]
    by_contra hmem
    rw [(containsA_false_iff t m).mpr hmem] at hc
    exact Bool.false_ne_true hc

/-- Invariant of the `from_single_document` fold: after processing the
enumerated tokens `processed`, the map has no duplicate keys, the word
count equals the number of tokens processed, every term present maps to
exactly one Hit, the canonical buffer for its occurrence positions so
far, and a term is present exactly when it has occurred. -/
theorem builder_fold (hash : List Nat) (hh : hash.length = HASH_LENGTH)
    (l processed : List (Nat × List Char)) (idx : InMemoryIndex)
    (hbound : processed.length + l.length < 2 ^ 32)
    (hkeys : (idx.map.map Prod.fst).Nodup)
    (hwc : idx.word_count = processed.length)
    (hmap : ∀ t v, lookupA t idx.map = some v →
      v = [encodeHit hash (occPos t processed)])
    (hocc : ∀ t, containsA t idx.map = true ↔ occPos t processed ≠ []) :
    ((l.foldl (builderStep hash) idx).map.map Prod.fst).Nodup ∧
    (l.foldl (builderStep hash) idx).word_count
      = processed.length + l.length ∧
    (∀ t v, lookupA t (l.foldl (builderStep hash) idx).map = some v →
      v = [encodeHit hash (occPos t (processed ++ l))]) ∧
    (∀ t, containsA t (l.foldl (builderStep hash) idx).map = true ↔
      occPos t (processed ++ l) ≠ []) := by
  induction l generalizing processed idx with
  | nil =>
      simp only [List.foldl_nil, List.append_nil, List.length_nil]
      exact ⟨hkeys, by omega, hmap, hocc⟩
  | cons it rest ih =>
      rw [List.foldl_cons]
      have hocclen : ∀ t, (occPos t processed).length < 2 ^ 32 :=
        fun t => Nat.lt_of_le_of_lt (occPos_length_le t processed) (by omega)
      have hmain : ((builderStep hash idx it).map.map Prod.fst).Nodup ∧
          (builderStep hash idx it).word_count = (processed ++ [it]).length ∧
          (∀ t v, lookupA t (builderStep hash idx it).map = some v →
            v = [encodeHit hash (occPos t (processed ++ [it]))]) ∧
          (∀ t, containsA t (builderStep hash idx it).map = true ↔
            occPos t (processed ++ [it]) ≠ []) := by
        by_cases hc : containsA (tokenBytes it.2) idx.map = true
        · -- the term already has an entry: its first Hit is patched
          simp only [builderStep, hc, if_true, ite_true]
          refine ⟨?_, ?_, ?_, ?_⟩
          · rw [updateA_map_fst]; exact hkeys
          · simp [hwc]
          · intro t v hv
            by_cases ht : t = tokenBytes it.2
            · subst ht
              rw [lookupA_updateA_self] at hv
              rcases ho : lookupA (tokenBytes it.2) idx.map with _ | v0
              · rw [ho] at hv; simp at hv
              · rw [ho] at hv
                simp only [Option.map_some', Option.some.injEq] at hv
                have hv0 := hmap _ v0 ho
                subst hv0
                rw [occPos_append, occPos_singleton]
                simp only [beq_self_eq_true, if_true, ite_true]
                rw [← hv]
                simp only [List.modifyHead_cons]
                rw [builderHitStep hash (occPos (tokenBytes it.2) processed)
                  it.1 hh (hocclen _)]
            · rw [lookupA_updateA_ne _ _ ht] at hv
              rw [occPos_append, occPos_singleton]
              rw [if_neg (by simpa using fun he => ht he.symm)]
              rw [List.append_nil]
              exact hmap t v hv
          · intro t
            rw [containsA_true_iff, updateA_map_fst, ← containsA_true_iff]
            rw [occPos_append, occPos_singleton]
            by_cases ht : tokenBytes it.2 = t
            · subst ht
              simp only [beq_self_eq_true, if_true, ite_true]
              constructor
              · intro _
                simp
              · intro _
                exact hc
            · rw [if_neg (by simpa using ht), List.append_nil]
              exact hocc t
        · -- fresh term: a new entry with a zero-count Hit is added first
          simp only [Bool.not_eq_true] at hc
          simp only [builderStep, hc, Bool.false_eq_true, if_false,
            ite_false]
          have hnone : lookupA (tokenBytes it.2) idx.map = none := by
            rcases ho : lookupA (tokenBytes it.2) idx.map with _ | v0
            · rfl
            · rw [containsA_eq_isSome_lookupA, ho] at hc
              simp at hc
          have hnotin : tokenBytes it.2 ∉ idx.map.map Prod.fst :=
            (containsA_false_iff _ _).mp hc
          have hkeys1 : ((idx.map ++
              [(tokenBytes it.2, [hash ++ encodeLE 4 0])]).map Prod.fst)
              = idx.map.map Prod.fst ++ [tokenBytes it.2] := by
            simp
          have hlook1 : lookupA (tokenBytes it.2)
              (idx.map ++ [(tokenBytes it.2, [hash ++ encodeLE 4 0])])
              = some [hash ++ encodeLE 4 0] := by
            rw [lookupA_append, hnone]
            simp
          have hlookne : ∀ t, t ≠ tokenBytes it.2 →
              lookupA t (idx.map ++
                [(tokenBytes it.2, [hash ++ encodeLE 4 0])])
              = lookupA t idx.map := by
            intro t ht
            rw [lookupA_append]
            rcases ho : lookupA t idx.map with _ | v0
            · simp only []
              rw [lookupA_cons]
              rw [if_neg (by simpa using fun he => ht he.symm)]
              rfl
            · rfl
          refine ⟨?_, ?_, ?_, ?_⟩
          · rw [updateA_map_fst, hkeys1]
            simp only [List.nodup_append, hkeys, List.nodup_cons,
              List.not_mem_nil, not_false_iff, List.nodup_nil, and_self,
              true_and, List.disjoint_singleton]
            exact hnotin
          · simp [hwc]
          · intro t v hv
            by_cases ht : t = tokenBytes it.2
            · subst ht
              rw [lookupA_updateA_self, hlook1] at hv
              simp only [Option.map_some', Option.some.injEq] at hv
              rw [occPos_append, occPos_singleton]
              simp only [beq_self_eq_true, if_true, ite_true]
              have hoccnil : occPos (tokenBytes it.2) processed = [] := by
                by_contra hne
                exact absurd ((hocc _).mpr hne) (by simp [hc])
              rw [hoccnil, ← hv]
              simp only [List.modifyHead_cons]
              rw [show hash ++ encodeLE 4 0 = encodeHit hash [] from
                (encodeHit_nil hash).symm]
              rw [builderHitStep hash [] it.1 hh (by norm_num)]
              try simp
            · rw [lookupA_updateA_ne _ _ ht, hlookne t ht] at hv
              rw [occPos_append, occPos_singleton]
              rw [if_neg (by simpa using fun he => ht he.symm)]
              rw [List.append_nil]
              exact hmap t v hv
          · intro t
            rw [containsA_true_iff, updateA_map_fst, hkeys1]
            rw [occPos_append, occPos_singleton]
            by_cases ht : tokenBytes it.2 = t
            · subst ht
              simp only [beq_self_eq_true, if_true, ite_true]
              simp
            · rw [if_neg (by simpa using ht), List.append_nil]
              rw [List.mem_append]
              simp only [List.mem_singleton]
              constructor
              · intro h
                rcases h with h | h
                · exact (hocc t).mp ((containsA_true_iff t idx.map).mpr h)
                · exact absurd h.symm ht
              · intro h
                exact Or.inl ((containsA_true_iff t idx.map).mp
                  ((hocc t).mpr h))
      obtain ⟨k1, k2, k3, k4⟩ := hmain
      have hbound2 : (processed ++ [it]).length + rest.length < 2 ^ 32 := by
        simp only [List.length_append, List.length_singleton,
          List.length_cons, List.length_nil] at hbound ⊢
        omega
      obtain ⟨r1, r2, r3, r4⟩ :=
        ih (processed ++ [it]) (builderStep hash idx it) hbound2 k1 k2 k3 k4
      rw [List.append_assoc] at r3 r4
      refine ⟨r1, ?_, ?_, ?_⟩
      · rw [r2]
        simp only [List.length_append, List.length_singleton,
          List.length_cons, List.length_nil]
        omega
      · simpa using r3
      · simpa using r4

theorem enum_pairwise_fst_lt {α : Type} (l : List α) :
    l.enum.Pairwise (fun a b => a.1 < b.1) := by
  have h : ∀ (n : Nat) (xs : List α),
      (List.enumFrom n xs).Pairwise (fun a b => a.1 < b.1) := by
    intro n xs
    induction xs generalizing n with
    | nil => simp
    | cons x xs ih =>
        rw [List.enumFrom]
        refine List.Pairwise.cons ?_ (ih (n + 1))
        intro b hb
        have := List.mem_enumFrom (x := b.2) (i := b.1) (j := n + 1)
          (by simpa using hb)
        omega
  simpa [List.enum] using h 0 l

theorem occPos_enum_facts (t : List Nat) (toks : List (List Char))
    (hlt : toks.length < 2 ^ 32) :
    (occPos t toks.enum).Pairwise (· < ·) ∧
      ∀ o ∈ occPos t toks.enum, o < toks.length := by
  have hmem : ∀ it ∈ toks.enum.filter
      (fun it => tokenBytes it.2 == t), it.1 < toks.length := by
    intro it hit
    exact List.fst_lt_of_mem_enum (List.mem_of_mem_filter hit)
  constructor
  · have hp : (toks.enum.filter (fun it => tokenBytes it.2 == t)).Pairwise
        (fun a b => a.1 < b.1) :=
      (enum_pairwise_fst_lt toks).filter _
    rw [occPos, List.pairwise_map]
    refine hp.imp_of_mem ?_
    intro a b ha hb hab
    have h1 := hmem a ha
    have h2 := hmem b hb
    have m1 : a.1 % 2 ^ 32 = a.1 := Nat.mod_eq_of_lt (by omega)
    have m2 : b.1 % 2 ^ 32 = b.1 := Nat.mod_eq_of_lt (by omega)
    rw [m1, m2]
    exact hab
  · intro o ho
    rw [occPos, List.mem_map] at ho
    obtain ⟨it, hit, rfl⟩ := ho
    have h1 := hmem it hit
    have : it.1 % 2 ^ 32 = it.1 := Nat.mod_eq_of_lt (by omega)
    omega

/-- Summary of `from_single_document` in terms of occurrence positions:
unique keys, word count = token count, and each present term maps to
exactly one canonical Hit holding its occurrence positions. -/
theorem from_single_document_spec (hash : List Nat) (text : List Char)
    (hh : hash.length = HASH_LENGTH)
    (hsmall : (tokenize (text.map Char.toLower)).length < 2 ^ 32) :
    (((from_single_document hash text).map.map Prod.fst).Nodup) ∧
    (from_single_document hash text).word_count
      = (tokenize (text.map Char.toLower)).length ∧
    (∀ t v, lookupA t (from_single_document hash text).map = some v →
      v = [encodeHit hash (occPos t (tokenize (text.map Char.toLower)).enum)]) ∧
    (∀ t, containsA t (from_single_document hash text).map = true ↔
      occPos t (tokenize (text.map Char.toLower)).enum ≠ []) := by
  have h := builder_fold hash hh (tokenize (text.map Char.toLower)).enum []
    InMemoryIndex.new (by simpa using hsmall) (by simp [InMemoryIndex.new])
    (by simp [InMemoryIndex.new])
    (by intro t v hv; simp [InMemoryIndex.new] at hv)
    (by intro t; simp [InMemoryIndex.new])
  simp only [List.nil_append, List.length_nil, Nat.zero_add] at h
  rw [List.enum_length] at h
  exact h

theorem occPos_lt_two_pow (t : List Nat) (l : List (Nat × List Char)) :
    ∀ o ∈ occPos t l, o < 2 ^ 32 := by
  intro o ho
  simp only [occPos, List.mem_map] at ho
  obtain ⟨it, _, rfl⟩ := ho
  exact Nat.mod_lt _ (by norm_num)

/-- Claim C3: for a 32-byte document hash `H` and the text
"cat dog cat", the builder yields a state where term "cat" has exactly
one Hit, for document `H` at offsets `[0, 2]`, term "dog" has one Hit
for `H` at offsets `[1]`, and `word_count = 3` (one increment per token,
duplicates included). -/
theorem claim_C3 (H : List Nat) (hh : H.length = HASH_LENGTH) :
    ∃ hcat hdog : List Nat,
      lookupA (strBytes "cat")
          (from_single_document H ("cat dog cat".data)).map = some [hcat] ∧
      hitDocHash hcat = H ∧ hitOffsets hcat = [0, 2] ∧
      lookupA (strBytes "dog")
          (from_single_document H ("cat dog cat".data)).map = some [hdog] ∧
      hitDocHash hdog = H ∧ hitOffsets hdog = [1] ∧
      (from_single_document H ("cat dog cat".data)).word_count = 3 := by
  obtain ⟨hnd, hwc, hmap, hocc⟩ :=
    from_single_document_spec H ("cat dog cat".data) hh (by decide)
  have hoccat : occPos (strBytes "cat")
      (tokenize (("cat dog cat".data).map Char.toLower)).enum = [0, 2] := by
    decide
  have hocdog : occPos (strBytes "dog")
      (tokenize (("cat dog cat".data).map Char.toLower)).enum = [1] := by
    decide
  have hccat := (hocc (strBytes "cat")).mpr (by rw [hoccat]; simp)
  have hcdog := (hocc (strBytes "dog")).mpr (by rw [hocdog]; simp)
  rw [containsA_eq_isSome_lookupA] at hccat hcdog
  obtain ⟨vcat, hvcat⟩ := Option.isSome_iff_exists.mp hccat
  obtain ⟨vdog, hvdog⟩ := Option.isSome_iff_exists.mp hcdog
  have hvcat2 := hmap _ vcat hvcat
  have hvdog2 := hmap _ vdog hvdog
  rw [hoccat] at hvcat2
  rw [hocdog] at hvdog2
  subst hvcat2
  subst hvdog2
  refine ⟨encodeHit H [0, 2], encodeHit H [1], hvcat,
    hitDocHash_encodeHit H [0, 2] hh,
    hitOffsets_encodeHit H [0, 2] hh (by decide), hvdog,
    hitDocHash_encodeHit H [1] hh,
    hitOffsets_encodeHit H [1] hh (by decide), ?_⟩
  rw [hwc]
  decide

/-- Witness for claim C3 at the all-zero 32-byte hash. -/
theorem claim_C3_witness :
    ((List.replicate 32 0 : List Nat).length = HASH_LENGTH) ∧
    (from_single_document (List.replicate 32 0)
      ("cat dog cat".data)).word_count = 3 := by
  refine ⟨by decide, ?_⟩
  obtain ⟨hcat, hdog, h⟩ := claim_C3 (List.replicate 32 0) (by decide)
  exact h.2.2.2.2.2.2

/-- Claim C4: tokenization splits on every run of non-alphanumeric
characters discarding empty fragments (the source tokenizer equals the
maximal-runs tokenizer); `tokenize "Hello, World! 123"` is
`["Hello", "World", "123"]`; and the builder lowercases before
tokenizing, so "Cat" and "cat" produce identical indexes (in particular
the same term keys). -/
theorem claim_C4 :
    (∀ text : List Char, tokenize text = tokenizeSpec text) ∧
    tokenize ("Hello, World! 123".data)
      = ["Hello".data, "World".data, "123".data] ∧
    ∀ document_hash : List Nat,
      from_single_document document_hash ("Cat".data)
        = from_single_document document_hash ("cat".data) := by
  refine ⟨tokenize_eq_tokenizeSpec, by decide, ?_⟩
  intro H
  simp only [from_single_document]
  rw [show ("Cat".data).map Char.toLower = ("cat".data).map Char.toLower
    from by decide]

/-- Claim C9: every term of a single-document index has exactly one Hit;
its byte length is `36 + 4k` where `k` is the little-endian `u32` at
bytes `[32, 36)`; exactly `k` four-byte offsets follow; `k ≥ 1`; and the
stored offsets are strictly increasing token positions. -/
theorem claim_C9 (document_hash : List Nat) (text : List Char)
    (hh : document_hash.length = HASH_LENGTH)
    (hsmall : (tokenize (text.map Char.toLower)).length < 2 ^ 32) :
    ∀ e ∈ (from_single_document document_hash text).map,
      e.2.length = 1 ∧
      ∀ h ∈ e.2,
        h.length = 36 + 4 * hitCount h ∧
        1 ≤ hitCount h ∧
        (h.drop 36).length = 4 * hitCount h ∧
        (hitOffsets h).length = hitCount h ∧
        (hitOffsets h).Pairwise (· < ·) ∧
        ∀ o ∈ hitOffsets h, o < (tokenize (text.map Char.toLower)).length := by
  obtain ⟨hnd, hwc, hmap, hocc⟩ :=
    from_single_document_spec document_hash text hh hsmall
  rintro ⟨t, v⟩ he
  have hlook : lookupA t (from_single_document document_hash text).map
      = some v := mem_lookupA hnd he
  have hv := hmap t v hlook
  subst hv
  set occ := occPos t (tokenize (text.map Char.toLower)).enum with hocceq
  have hocclen : occ.length < 2 ^ 32 := by
    have h1 := occPos_length_le t (tokenize (text.map Char.toLower)).enum
    rw [List.enum_length, ← hocceq] at h1
    omega
  have hoccne : occ ≠ [] := by
    refine (hocc t).mp ?_
    rw [containsA_true_iff]
    exact List.mem_map.mpr ⟨(t, [encodeHit document_hash occ]), he, rfl⟩
  have hofacts := occPos_enum_facts t (tokenize (text.map Char.toLower)) hsmall
  have hcnt : hitCount (encodeHit document_hash occ) = occ.length :=
    hitCount_encodeHit document_hash occ hh hocclen
  have hoffs : hitOffsets (encodeHit document_hash occ) = occ :=
    hitOffsets_encodeHit document_hash occ hh (occPos_lt_two_pow t _)
  refine ⟨rfl, ?_⟩
  intro h hmem
  rw [List.mem_singleton] at hmem
  subst hmem
  refine ⟨?_, ?_, ?_, ?_, ?_, ?_⟩
  · rw [encodeHit_length document_hash occ hh, hcnt]
  · rw [hcnt]
    rcases occ with _ | ⟨o, os⟩
    · exact absurd rfl hoccne
    · simp
  · rw [drop36_encodeHit document_hash occ hh, hcnt,
      flatten_map_encodeLE4_length]
  · rw [hoffs, hcnt]
  · rw [hoffs]
    exact hofacts.1
  · rw [hoffs]
    exact hofacts.2

/-- Witness for claim C9 at the all-zero hash and "cat dog cat". -/
theorem claim_C9_witness :
    ((List.replicate 32 0 : List Nat).length = HASH_LENGTH) ∧
    ((tokenize (("cat dog cat".data).map Char.toLower)).length < 2 ^ 32) ∧
    ∀ e ∈ (from_single_document (List.replicate 32 0)
        ("cat dog cat".data)).map, e.2.length = 1 :=
  ⟨by decide, by decide, fun e he =>
    (claim_C9 (List.replicate 32 0) ("cat dog cat".data)
      (by decide) (by decide) e he).1⟩

@[simp] theorem dataBytes_nil : dataBytes [] = [] := rfl

@[simp] theorem dataBytes_cons (e : List Nat × List (List Nat))
    (rest : List (List Nat × List (List Nat))) :
    dataBytes (e :: rest) = e.2.flatten ++ dataBytes rest := by
  simp [dataBytes]

theorem dataBytes_append (l1 l2 : List (List Nat × List (List Nat))) :
    dataBytes (l1 ++ l2) = dataBytes l1 ++ dataBytes l2 := by
  simp [dataBytes]

theorem write_index_eq_writeEntry_fold (index : InMemoryIndex) :
    write_index_to_tmp_file index =
      ((index.map.mergeSort (fun a b => termLe a.1 b.1)).foldl writeEntry
        IndexFileWriter.new).finish := rfl

theorem fold_write_data (hits : List (List Nat)) (w : IndexFileWriter) :
    hits.foldl (fun w buffer => w.write_data buffer) w =
      { offset := w.offset + hits.flatten.length,
        file := w.file ++ hits.flatten,
        contents_buf := w.contents_buf } := by
  induction hits generalizing w with
  | nil => simp
  | cons h rest ih =>
      rw [List.foldl_cons, ih]
      simp [IndexFileWriter.write_data, List.append_assoc]
      try omega

theorem writeEntry_spec (w : IndexFileWriter) (e : List Nat × List (List Nat)) :
    writeEntry w e =
      { offset := w.offset + e.2.flatten.length,
        file := w.file ++ e.2.flatten,
        contents_buf := w.contents_buf ++ tocEntryBytes w.offset e } := by
  simp only [writeEntry, fold_write_data, IndexFileWriter.write_contents_entry,
    tocEntryBytes]
  simp [List.append_assoc]
  try omega

theorem fold_writeEntry (es : List (List Nat × List (List Nat)))
    (w : IndexFileWriter) :
    es.foldl writeEntry w =
      { offset := w.offset + (dataBytes es).length,
        file := w.file ++ dataBytes es,
        contents_buf := w.contents_buf ++ tocBytesFrom w.offset es } := by
  induction es generalizing w with
  | nil => simp [tocBytesFrom]
  | cons e rest ih =>
      rw [List.foldl_cons, writeEntry_spec, ih]
      simp only [dataBytes_cons, tocBytesFrom, List.length_append,
        List.append_assoc, IndexFileWriter.mk.injEq]
      refine ⟨by omega, by simp [List.append_assoc], by simp [List.append_assoc]⟩

/-- Closed form of the writer: header holding the table offset, data
region, table region. -/
theorem write_index_closed_form (index : InMemoryIndex) :
    write_index_to_tmp_file index =
      encodeLE 8 (8 + (dataBytes
        (index.map.mergeSort (fun a b => termLe a.1 b.1))).length) ++
      dataBytes (index.map.mergeSort (fun a b => termLe a.1 b.1)) ++
      tocBytesFrom 8 (index.map.mergeSort (fun a b => termLe a.1 b.1)) := by
  rw [write_index_eq_writeEntry_fold, fold_writeEntry]
  simp only [IndexFileWriter.new, IndexFileWriter.finish, List.nil_append]
  rw [List.append_assoc, List.drop_left' (encodeLE_length 8 0)]
  simp [List.append_assoc]

/-! ## Decoding the written bytes -/

theorem encodeLE4_mod32 (x : Nat) :
    encodeLE 4 (x % 2 ^ 32) = encodeLE 4 x := by
  rw [show (2 : Nat) ^ 32 = 256 ^ 4 by norm_num, encodeLE_mod]

theorem readU64_encodeLE (v : Nat) (rest : List Nat) (hv : v < 2 ^ 64) :
    readU64 (encodeLE 8 v ++ rest) = .ok (v, rest) := by
  rw [readU64, if_pos (by simp)]
  rw [List.take_left' (encodeLE_length 8 v),
    List.drop_left' (encodeLE_length 8 v)]
  rw [decodeLE_encodeLE_of_lt (by norm_num at hv ⊢; omega)]

theorem readU32_encodeLE (v : Nat) (rest : List Nat) (hv : v < 2 ^ 32) :
    readU32 (encodeLE 4 v ++ rest) = .ok (v, rest) := by
  rw [readU32, if_pos (by simp)]
  rw [List.take_left' (encodeLE_length 4 v),
    List.drop_left' (encodeLE_length 4 v)]
  rw [decodeLE_encodeLE_of_lt (by norm_num at hv ⊢; omega)]

theorem readU32_encodeLE_mod (v : Nat) (rest : List Nat) :
    readU32 (encodeLE 4 v ++ rest) = .ok (v % 2 ^ 32, rest) := by
  rw [← encodeLE4_mod32]
  exact readU32_encodeLE _ _ (Nat.mod_lt _ (by norm_num))

theorem readExact_append (xs rest : List Nat) :
    readExact (xs ++ rest) xs.length = .ok (xs, rest) := by
  rw [readExact, if_pos (by simp)]
  rw [List.take_left' rfl, List.drop_left' rfl]

/-- Reading one table record out of the writer's record bytes. -/
theorem readTocRecord_tocEntry (pos : Nat) (e : List Nat × List (List Nat))
    (tail : List Nat) (hpos : pos < 2 ^ 64)
    (hn : e.2.flatten.length < 2 ^ 64) (hd : e.2.length < 2 ^ 32)
    (ht : e.1.length < 2 ^ 32) (hvalid : validUTF8 e.1 = true) :
    readTocRecord (tocEntryBytes pos e ++ tail)
      = .record pos e.2.flatten.length e.2.length e.1 tail := by
  have h1 : tocEntryBytes pos e ++ tail
      = encodeLE 8 pos ++ (encodeLE 8 e.2.flatten.length ++
          (encodeLE 4 e.2.length ++ (encodeLE 4 e.1.length ++
            (e.1 ++ tail)))) := by
    rw [tocEntryBytes, encodeLE4_mod32, encodeLE4_mod32]
    simp [List.append_assoc]
  rw [h1]
  simp only [readTocRecord, readU64_encodeLE pos _ hpos,
    readU64_encodeLE e.2.flatten.length _ hn,
    readU32_encodeLE e.2.length _ hd,
    readU32_encodeLE e.1.length _ ht]
  rw [show e.1 ++ tail = e.1 ++ tail from rfl]
  have h2 := readExact_append e.1 tail
  simp only [h2, string_from_utf8, hvalid, if_true, ite_true]

theorem decodeChunks4_cons (xs : List Nat) (h : 4 ≤ xs.length) :
    decodeChunks4 xs = decodeLE (xs.take 4) :: decodeChunks4 (xs.drop 4) := by
  rw [decodeChunks4]
  rw [dif_neg (by omega)]

theorem readOffsetsLoop_chunks (k : Nat) (xs rest : List Nat)
    (hlen : xs.length = 4 * k) :
    readOffsetsLoop (xs ++ rest) k = .ok (decodeChunks4 xs, rest) := by
  induction k generalizing xs rest with
  | zero =>
      have hx : xs = [] := List.length_eq_zero.mp (by omega)
      subst hx
      simp [readOffsetsLoop, decodeChunks4]
  | succ k ih =>
      have h4 : 4 ≤ xs.length := by omega
      rw [readOffsetsLoop]
      have hu : readU32 (xs ++ rest)
          = .ok (decodeLE (xs.take 4), xs.drop 4 ++ rest) := by
        rw [readU32, if_pos (by simp; omega)]
        rw [List.take_append_of_le_length h4,
          List.drop_append_of_le_length h4]
      simp only [hu]
      simp only [ih (xs.drop 4) rest (by simp; omega)]
      rw [decodeChunks4_cons xs h4]

theorem parseHitsLoop_flatten (hits : List (List Nat)) (rest : List Nat)
    (entry : DocEntry) (hwf : ∀ h ∈ hits, WfHit h) :
    parseHitsLoop (hits.flatten ++ rest) hits.length entry
      = .ok (hits.foldl
          (fun e h => insertA e (hitDocHash h) (hitOffsets h)) entry) := by
  induction hits generalizing rest entry with
  | nil => simp [parseHitsLoop]
  | cons h hs ih =>
      obtain ⟨hge, hcnt⟩ := hwf h (List.mem_cons_self h hs)
      have hwf2 : ∀ x ∈ hs, WfHit x :=
        fun x hx => hwf x (List.mem_cons_of_mem h hx)
      rw [List.flatten_cons, List.append_assoc, List.length_cons]
      rw [parseHitsLoop]
      have h32 : HASH_LENGTH ≤ h.length := by
        simp only [HASH_LENGTH]; omega
      have h4 : 4 ≤ (h.drop HASH_LENGTH).length := by
        simp only [List.length_drop, HASH_LENGTH]; omega
      have e1 : readExact (h ++ (hs.flatten ++ rest)) HASH_LENGTH
          = .ok (h.take HASH_LENGTH,
              h.drop HASH_LENGTH ++ (hs.flatten ++ rest)) := by
        rw [readExact, if_pos (by simp [HASH_LENGTH]; omega)]
        rw [List.take_append_of_le_length h32,
          List.drop_append_of_le_length h32]
      simp only [e1]
      have e2 : readU32 (h.drop HASH_LENGTH ++ (hs.flatten ++ rest))
          = .ok (hitCount h,
              h.drop (HASH_LENGTH + 4) ++ (hs.flatten ++ rest)) := by
        rw [readU32, if_pos (by simp only [List.length_append]; omega)]
        rw [List.take_append_of_le_length h4,
          List.drop_append_of_le_length h4, List.drop_drop]
        rfl
      simp only [e2]
      have hlen36 : (h.drop (HASH_LENGTH + 4)).length = 4 * hitCount h := by
        simp only [List.length_drop, HASH_LENGTH]
        omega
      simp only [readOffsetsLoop_chunks (hitCount h) _ _ hlen36]
      rw [List.foldl_cons]
      exact ih rest _ hwf2

/-! ## Equation lemmas for the decode loop -/

theorem readTocRecord_endOfToc {table : List Nat} (h : table.length < 8) :
    readTocRecord table = .endOfToc := by
  have hu : readU64 table = .error .unexpectedEof := by
    rw [readU64, if_neg (by omega)]
  simp only [readTocRecord, hu]

theorem tocLoop_endOfToc (file table : List Nat)
    (m : List (List Nat × DocEntry)) (wc : Nat)
    (h : readTocRecord table = .endOfToc) :
    tocLoop file table m wc = .ok ⟨wc, m⟩ := by
  rw [tocLoop]
  split <;> rename_i heq <;> rw [h] at heq <;>
    first
      | rfl
      | exact TocRead.noConfusion heq

theorem tocLoop_ioError (file table : List Nat)
    (m : List (List Nat × DocEntry)) (wc : Nat) (e : IOError)
    (h : readTocRecord table = .ioError e) :
    tocLoop file table m wc = .err e := by
  rw [tocLoop]
  split <;> rename_i heq <;> rw [h] at heq <;>
    first
      | exact TocRead.noConfusion heq
      | (injection heq with h2; rw [h2])

theorem tocLoop_unicodePanic (file table : List Nat)
    (m : List (List Nat × DocEntry)) (wc : Nat)
    (h : readTocRecord table = .unicodePanic) :
    tocLoop file table m wc = .panicked "byte vector is not valid UTF-8" := by
  rw [tocLoop]
  split <;> rename_i heq <;> rw [h] at heq <;>
    first
      | rfl
      | exact TocRead.noConfusion heq

theorem tocLoop_record (file table : List Nat)
    (m : List (List Nat × DocEntry)) (wc : Nat)
    (o n d : Nat) (t rest : List Nat)
    (h : readTocRecord table = .record o n d t rest) :
    tocLoop file table m wc =
      match readExactAt file o n with
      | .error e => .err e
      | .ok hits_raw =>
          match parseHitsLoop hits_raw d [] with
          | .error e => .err e
          | .ok entry => tocLoop file rest (insertA m t entry) (wc + 1) := by
  rw [tocLoop]
  split <;> rename_i heq <;> rw [h] at heq <;>
    first
      | exact TocRead.noConfusion heq
      | (injection heq with h1 h2 h3 h4 h5;
         subst h1; subst h2; subst h3; subst h4; subst h5; rfl)

/-- Reading the data slice that the writer placed for entry `e`, given
the entries before it in the data region. -/
theorem readExactAt_data (ts : Nat)
    (pre post : List (List Nat × List (List Nat)))
    (e : List Nat × List (List Nat)) (T : List Nat) :
    readExactAt (encodeLE 8 ts ++ dataBytes (pre ++ e :: post) ++ T)
      (8 + (dataBytes pre).length) e.2.flatten.length
      = .ok e.2.flatten := by
  by_cases h0 : e.2.flatten.length = 0
  · rw [readExactAt, if_pos h0, List.length_eq_zero.mp h0]
  · have harr : encodeLE 8 ts ++ dataBytes (pre ++ e :: post) ++ T
        = (encodeLE 8 ts ++ dataBytes pre) ++
            (e.2.flatten ++ (dataBytes post ++ T)) := by
      rw [dataBytes_append, dataBytes_cons]
      simp [List.append_assoc]
    have hlen : (encodeLE 8 ts ++ dataBytes pre).length
        = 8 + (dataBytes pre).length := by simp
    rw [harr, readExactAt, if_neg h0, if_pos (by simp; omega)]
    rw [List.drop_left' hlen]
    rw [List.take_left' rfl]

/-- Decoding the table of contents the writer produced, entry by entry:
starting anywhere in the table, the loop accumulates exactly one map
insertion and one word-count increment per remaining entry and ends
cleanly at the end of the table. -/
theorem tocLoop_spec (ts : Nat) (S : List (List Nat × List (List Nat)))
    (hwf : ∀ e ∈ S, e.1.length < 2 ^ 32 ∧ validUTF8 e.1 = true ∧
      e.2.length < 2 ^ 32 ∧ ∀ h ∈ e.2, WfHit h)
    (hsize : 8 + (dataBytes S).length < 2 ^ 64) :
    ∀ (suf pre : List (List Nat × List (List Nat)))
      (map0 : List (List Nat × DocEntry)) (wc0 : Nat), S = pre ++ suf →
      tocLoop (encodeLE 8 ts ++ dataBytes S ++ tocBytesFrom 8 S)
          (tocBytesFrom (8 + (dataBytes pre).length) suf) map0 wc0
        = .ok ⟨wc0 + suf.length,
            suf.foldl (fun m e => insertA m e.1 (decodedEntry e.2)) map0⟩ := by
  intro suf
  induction suf with
  | nil =>
      intro pre map0 wc0 hS
      rw [tocBytesFrom]
      rw [tocLoop_endOfToc _ _ _ _ (readTocRecord_endOfToc (by simp))]
      simp
  | cons e post ih =>
      intro pre map0 wc0 hS
      have hmem : e ∈ S := by rw [hS]; simp
      obtain ⟨ht32, hvalid, hd32, hwfh⟩ := hwf e hmem
      have hdataS : dataBytes S
          = dataBytes pre ++ (e.2.flatten ++ dataBytes post) := by
        rw [hS, dataBytes_append, dataBytes_cons]
      have hpre64 : 8 + (dataBytes pre).length < 2 ^ 64 := by
        rw [hdataS] at hsize
        simp only [List.length_append] at hsize
        omega
      have hn64 : e.2.flatten.length < 2 ^ 64 := by
        rw [hdataS] at hsize
        simp only [List.length_append] at hsize
        omega
      rw [tocBytesFrom]
      rw [tocLoop_record _ _ _ _ _ _ _ _ _
        (readTocRecord_tocEntry (8 + (dataBytes pre).length) e _
          hpre64 hn64 hd32 ht32 hvalid)]
      rw [hS, readExactAt_data ts pre post e _]
      have hparse := parseHitsLoop_flatten e.2 [] [] hwfh
      rw [List.append_nil] at hparse
      simp only [hparse]
      have hfold : (e.2.foldl
          (fun en h => insertA en (hitDocHash h) (hitOffsets h)) [])
          = decodedEntry e.2 := rfl
      rw [hfold]
      rw [← hS]
      have ihres := ih (pre ++ [e]) (insertA map0 e.1 (decodedEntry e.2))
        (wc0 + 1) (by rw [hS]; simp)
      rw [dataBytes_append, dataBytes_cons, dataBytes_nil,
        List.append_nil, List.length_append] at ihres
      rw [show 8 + (dataBytes pre).length + e.2.flatten.length
        = 8 + ((dataBytes pre).length + e.2.flatten.length) from by omega]
      rw [ihres]
      rw [List.foldl_cons]
      simp only [List.length_cons]
      have harith : wc0 + 1 + post.length = wc0 + (post.length + 1) := by
        omega
      rw [harith]

/-! ## Term order -/

theorem termLe_total : ∀ a b : List Nat, (termLe a b || termLe b a) = true
  | [], b => by simp [termLe]
  | a :: as2, [] => by simp [termLe]
  | x :: xs, y :: ys => by
      simp only [termLe]
      rcases Nat.lt_trichotomy x y with h | h | h
      · simp [h]
      · subst h
        have hxx : ¬ (x < x) := by omega
        rw [if_neg hxx, if_neg hxx, if_neg hxx, if_neg hxx]
        exact termLe_total xs ys
      · simp [h, Nat.lt_asymm h]

theorem termLe_trans : ∀ a b c : List Nat, termLe a b = true →
    termLe b c = true → termLe a c = true
  | [], _, _, _, _ => by simp [termLe]
  | x :: xs, [], _, h1, _ => by simp [termLe] at h1
  | x :: xs, y :: ys, [], _, h2 => by simp [termLe] at h2
  | x :: xs, y :: ys, z :: zs, h1, h2 => by
      simp only [termLe] at h1 h2 ⊢
      have hx : x < y ∨ (x = y ∧ termLe xs ys = true) := by
        by_cases h : x < y
        · exact Or.inl h
        · rw [if_neg h] at h1
          by_cases h2x : y < x
          · rw [if_pos h2x] at h1
            exact absurd h1 (by simp)
          · rw [if_neg h2x] at h1
            exact Or.inr ⟨by omega, h1⟩
      have hy : y < z ∨ (y = z ∧ termLe ys zs = true) := by
        by_cases h : y < z
        · exact Or.inl h
        · rw [if_neg h] at h2
          by_cases h2x : z < y
          · rw [if_pos h2x] at h2
            exact absurd h2 (by simp)
          · rw [if_neg h2x] at h2
            exact Or.inr ⟨by omega, h2⟩
      rcases hx with hx | ⟨hx, hxs⟩
      · rcases hy with hy | ⟨hy, _⟩
        · rw [if_pos (by omega)]
        · rw [if_pos (by omega)]
      · rcases hy with hy | ⟨hy, hys⟩
        · rw [if_pos (by omega)]
        · rw [if_neg (by omega), if_neg (by omega)]
          exact termLe_trans xs ys zs hxs hys

theorem dataBytes_length (m : List (List Nat × List (List Nat))) :
    (dataBytes m).length
      = (m.map (fun e => (e.2.map List.length).sum)).sum := by
  induction m with
  | nil => rfl
  | cons e rest ih =>
      rw [dataBytes_cons]
      simp [ih]

theorem dataBytes_length_perm
    {m1 m2 : List (List Nat × List (List Nat))} (h : m1.Perm m2) :
    (dataBytes m1).length = (dataBytes m2).length := by
  rw [dataBytes_length, dataBytes_length]
  exact (h.map _).sum_eq

/-! ## The decoded map -/

theorem foldl_insertA_generic {α β : Type} (g : List Nat × α → β) :
    ∀ (hits : List (List Nat × α)) (acc : List (List Nat × β)),
      hits.foldl (fun m e => insertA m e.1 (g e)) acc
        = (hits.map (fun e => (e.1, g e))).reverse ++ acc
  | [], acc => by simp
  | e :: rest, acc => by
      rw [List.foldl_cons, foldl_insertA_generic g rest]
      simp [insertA, List.append_assoc]

theorem lookupA_foldl_insertA_of_not_mem {α β : Type}
    (g : List Nat × α → β) (es : List (List Nat × α))
    (m0 : List (List Nat × β)) (t : List Nat)
    (ht : t ∉ es.map Prod.fst) :
    lookupA t (es.foldl (fun m e => insertA m e.1 (g e)) m0)
      = lookupA t m0 := by
  induction es generalizing m0 with
  | nil => simp
  | cons e rest ih =>
      rw [List.foldl_cons]
      simp only [List.map_cons, List.mem_cons, not_or] at ht
      rw [ih _ ht.2]
      simp only [insertA, lookupA_cons]
      rw [if_neg (by simpa using fun he => ht.1 he.symm)]

theorem lookupA_foldl_insertA_of_mem {α β : Type}
    (g : List Nat × α → β) (es : List (List Nat × α))
    (m0 : List (List Nat × β)) (hnd : (es.map Prod.fst).Nodup)
    {t : List Nat} {v : α} (hmem : (t, v) ∈ es) :
    lookupA t (es.foldl (fun m e => insertA m e.1 (g e)) m0)
      = some (g (t, v)) := by
  induction es generalizing m0 with
  | nil => simp at hmem
  | cons e rest ih =>
      rw [List.map_cons, List.nodup_cons] at hnd
      rw [List.foldl_cons]
      rcases List.mem_cons.mp hmem with h | h
      · subst h
        rw [lookupA_foldl_insertA_of_not_mem g rest _ _ hnd.1]
        simp [insertA]
      · exact ih _ hnd.2 h

theorem decodedEntry_eq (hits : List (List Nat)) :
    decodedEntry hits
      = (hits.map (fun h => (hitDocHash h, hitOffsets h))).reverse := by
  have h := foldl_insertA_generic (fun e : List Nat × List Nat => e.2)
  simp only [decodedEntry]
  have h2 : ∀ (l : List (List Nat)) (acc : DocEntry),
      l.foldl (fun e h => insertA e (hitDocHash h) (hitOffsets h)) acc
        = (l.map (fun h => (hitDocHash h, hitOffsets h))).reverse ++ acc := by
    intro l
    induction l with
    | nil => simp
    | cons x xs ih =>
        intro acc
        rw [List.foldl_cons, ih]
        simp [insertA, List.append_assoc]
  rw [h2 hits []]
  simp

theorem decodedEntry_keys (hits : List (List Nat)) :
    (decodedEntry hits).map Prod.fst = (hits.map hitDocHash).reverse := by
  rw [decodedEntry_eq, List.map_reverse, List.map_map]
  rfl

theorem lookupA_decodedEntry_mem (hits : List (List Nat))
    (hnd : (hits.map hitDocHash).Nodup) {h : List Nat} (hm : h ∈ hits) :
    lookupA (hitDocHash h) (decodedEntry hits) = some (hitOffsets h) := by
  apply mem_lookupA
  · rw [decodedEntry_keys]
    exact List.nodup_reverse.mpr hnd
  · rw [decodedEntry_eq, List.mem_reverse]
    exact List.mem_map.mpr ⟨h, hm, rfl⟩

theorem lookupA_decodedEntry_isSome (hits : List (List Nat))
    (hash : List Nat) :
    (lookupA hash (decodedEntry hits)).isSome = true ↔
      hash ∈ hits.map hitDocHash := by
  rw [← containsA_eq_isSome_lookupA, containsA_true_iff, decodedEntry_keys,
    List.mem_reverse]

/-! ## Round trip: write then full-decode -/

theorem get_index_from_file_write (index : InMemoryIndex)
    (hwf : ∀ e ∈ index.map, e.1.length < 2 ^ 32 ∧ validUTF8 e.1 = true ∧
      e.2.length < 2 ^ 32 ∧ ∀ h ∈ e.2, WfHit h)
    (hsize : 8 + (dataBytes index.map).length < 2 ^ 64) :
    get_index_from_file (write_index_to_tmp_file index)
      = .ok ⟨index.map.length,
          (index.map.mergeSort (fun a b => termLe a.1 b.1)).foldl
            (fun m e => insertA m e.1 (decodedEntry e.2)) []⟩ := by
  have hperm : (index.map.mergeSort (fun a b => termLe a.1 b.1)).Perm
      index.map := List.mergeSort_perm index.map _
  set S := index.map.mergeSort (fun a b => termLe a.1 b.1) with hSdef
  have hwfS : ∀ e ∈ S, e.1.length < 2 ^ 32 ∧ validUTF8 e.1 = true ∧
      e.2.length < 2 ^ 32 ∧ ∀ h ∈ e.2, WfHit h :=
    fun e he => hwf e (hperm.mem_iff.mp he)
  have hsizeS : 8 + (dataBytes S).length < 2 ^ 64 := by
    rw [dataBytes_length_perm hperm]
    exact hsize
  rw [write_index_closed_form, ← hSdef]
  have hts : 8 + (dataBytes S).length < 2 ^ 64 := hsizeS
  have hF : encodeLE 8 (8 + (dataBytes S).length) ++ dataBytes S ++
      tocBytesFrom 8 S
      = encodeLE 8 (8 + (dataBytes S).length) ++
          (dataBytes S ++ tocBytesFrom 8 S) := by
    rw [List.append_assoc]
  have hu : readU64 (encodeLE 8 (8 + (dataBytes S).length) ++ dataBytes S ++
      tocBytesFrom 8 S)
      = .ok (8 + (dataBytes S).length, dataBytes S ++ tocBytesFrom 8 S) := by
    rw [hF]
    exact readU64_encodeLE _ _ hts
  simp only [get_index_from_file, hu]
  have hdrop : (encodeLE 8 (8 + (dataBytes S).length) ++ dataBytes S ++
      tocBytesFrom 8 S).drop (8 + (dataBytes S).length)
      = tocBytesFrom 8 S := by
    apply List.drop_left'
    simp
  rw [hdrop]
  have hspec := tocLoop_spec (8 + (dataBytes S).length) S hwfS hsizeS
    S [] [] 0 (by simp)
  simp only [dataBytes_nil, List.length_nil, Nat.add_zero, Nat.zero_add]
    at hspec
  rw [hspec]
  rw [hperm.length_eq]

/-- Claim C1: writing an in-memory index and full-decoding the file
reproduces, for every term, the same set of document identities and, per
document, exactly the offset sequence encoded in that document's Hit
(same elements and same length). The hypotheses are the data-model
invariants of an in-memory index: unique term keys, Hits that follow the
Hit record layout with one Hit per distinct document, and sizes
representable in the on-disk integer fields. -/
theorem claim_C1 (index : InMemoryIndex)
    (hkeys : (index.map.map Prod.fst).Nodup)
    (hwf : ∀ e ∈ index.map, e.1.length < 2 ^ 32 ∧ validUTF8 e.1 = true ∧
      e.2.length < 2 ^ 32 ∧ (∀ h ∈ e.2, WfHit h) ∧
      (e.2.map hitDocHash).Nodup)
    (hsize : 8 + (dataBytes index.map).length < 2 ^ 64) :
    ∃ p : ParsedIndex,
      get_index_from_file (write_index_to_tmp_file index) = .ok p ∧
      ∀ term hits, (term, hits) ∈ index.map →
        ∃ entry, lookupA term p.map = some entry ∧
          (∀ hash, ((lookupA hash entry).isSome = true ↔
            hash ∈ hits.map hitDocHash)) ∧
          ∀ h ∈ hits, lookupA (hitDocHash h) entry = some (hitOffsets h) := by
  have hwf2 : ∀ e ∈ index.map, e.1.length < 2 ^ 32 ∧ validUTF8 e.1 = true ∧
      e.2.length < 2 ^ 32 ∧ ∀ h ∈ e.2, WfHit h :=
    fun e he => ⟨(hwf e he).1, (hwf e he).2.1, (hwf e he).2.2.1,
      (hwf e he).2.2.2.1⟩
  refine ⟨_, get_index_from_file_write index hwf2 hsize, ?_⟩
  intro term hits hmem
  have hperm := List.mergeSort_perm index.map (fun a b => termLe a.1 b.1)
  have hmemS : (term, hits) ∈
      index.map.mergeSort (fun a b => termLe a.1 b.1) :=
    hperm.mem_iff.mpr hmem
  have hndS : ((index.map.mergeSort
      (fun a b => termLe a.1 b.1)).map Prod.fst).Nodup :=
    ((hperm.map Prod.fst).nodup_iff).mpr hkeys
  refine ⟨decodedEntry hits, ?_, ?_, ?_⟩
  · exact lookupA_foldl_insertA_of_mem (fun e => decodedEntry e.2) _ []
      hndS hmemS
  · exact fun hash => lookupA_decodedEntry_isSome hits hash
  · intro h hm
    exact lookupA_decodedEntry_mem hits (hwf _ hmem).2.2.2.2 hm

/-- Witness for claim C1 at a concrete one-term index. -/
theorem claim_C1_witness :
    ((sampleIndex.map.map Prod.fst).Nodup) ∧
    (8 + (dataBytes sampleIndex.map).length < 2 ^ 64) ∧
    ∃ p : ParsedIndex,
      get_index_from_file (write_index_to_tmp_file sampleIndex) = .ok p ∧
      ∀ term hits, (term, hits) ∈ sampleIndex.map →
        ∃ entry, lookupA term p.map = some entry ∧
          (∀ hash, ((lookupA hash entry).isSome = true ↔
            hash ∈ hits.map hitDocHash)) ∧
          ∀ h ∈ hits, lookupA (hitDocHash h) entry = some (hitOffsets h) :=
  ⟨by decide, by decide,
    claim_C1 sampleIndex (by decide) (by decide) (by decide)⟩

/-- Claim C2: the written file has the declared layout. Bytes `[0..8)`
hold the little-endian `u64` equal to 8 plus the total length of all Hit
bytes (the absolute offset where the table of contents begins), the
concatenated Hit data follows, then the table records; the table is in
sorted term order, matching the data region order (the final conjunct:
each table entry's recorded range reads back exactly that term's Hit
bytes). -/
theorem claim_C2 (index : InMemoryIndex)
    (hsize : 8 + (dataBytes (index.map.mergeSort
      (fun a b => termLe a.1 b.1))).length < 2 ^ 64) :
    write_index_to_tmp_file index
      = encodeLE 8 (8 + (dataBytes (index.map.mergeSort
            (fun a b => termLe a.1 b.1))).length) ++
          dataBytes (index.map.mergeSort (fun a b => termLe a.1 b.1)) ++
          tocBytesFrom 8 (index.map.mergeSort (fun a b => termLe a.1 b.1)) ∧
    decodeLE ((write_index_to_tmp_file index).take 8)
      = 8 + (dataBytes (index.map.mergeSort
          (fun a b => termLe a.1 b.1))).length ∧
    (dataBytes (index.map.mergeSort (fun a b => termLe a.1 b.1))).length
      = (index.map.map (fun e => (e.2.map List.length).sum)).sum ∧
    (index.map.mergeSort (fun a b => termLe a.1 b.1)).Pairwise
      (fun a b => termLe a.1 b.1 = true) ∧
    ∀ pre e post,
      index.map.mergeSort (fun a b => termLe a.1 b.1) = pre ++ e :: post →
      readExactAt (write_index_to_tmp_file index)
        (8 + (dataBytes pre).length) e.2.flatten.length
        = .ok e.2.flatten := by
  refine ⟨write_index_closed_form index, ?_, ?_, ?_, ?_⟩
  · rw [write_index_closed_form, List.append_assoc,
      List.take_left' (encodeLE_length 8 _)]
    exact decodeLE_encodeLE_of_lt (by norm_num at hsize ⊢; omega)
  · rw [dataBytes_length_perm (List.mergeSort_perm index.map _)]
    exact dataBytes_length index.map
  · exact List.sorted_mergeSort
      (fun a b c hab hbc => termLe_trans a.1 b.1 c.1 hab hbc)
      (fun a b => termLe_total a.1 b.1) index.map
  · intro pre e post hS
    rw [write_index_closed_form, hS]
    exact readExactAt_data _ pre post e _

/-- Witness for claim C2 at a concrete one-term index. -/
theorem claim_C2_witness :
    (8 + (dataBytes (sampleIndex.map.mergeSort
      (fun a b => termLe a.1 b.1))).length < 2 ^ 64) ∧
    decodeLE ((write_index_to_tmp_file sampleIndex).take 8)
      = 8 + (dataBytes (sampleIndex.map.mergeSort
          (fun a b => termLe a.1 b.1))).length := by
  have hs : 8 + (dataBytes (sampleIndex.map.mergeSort
      (fun a b => termLe a.1 b.1))).length < 2 ^ 64 := by
    rw [dataBytes_length_perm (List.mergeSort_perm sampleIndex.map _)]
    decide
  exact ⟨hs, (claim_C2 sampleIndex hs).2.1⟩

/-- Claim C7: the word count reported by the full decode equals the
number of table-of-contents records in the file — one per distinct term
— not the number of tokens in the indexed documents. -/
theorem claim_C7 (index : InMemoryIndex)
    (hwf : ∀ e ∈ index.map, e.1.length < 2 ^ 32 ∧ validUTF8 e.1 = true ∧
      e.2.length < 2 ^ 32 ∧ ∀ h ∈ e.2, WfHit h)
    (hsize : 8 + (dataBytes index.map).length < 2 ^ 64) :
    ∃ p : ParsedIndex,
      get_index_from_file (write_index_to_tmp_file index) = .ok p ∧
      p.word_count = index.map.length :=
  ⟨_, get_index_from_file_write index hwf hsize, rfl⟩

/-! ## Merge -/

theorem merge_fold_lookup (es : List (List Nat × List (List Nat))) :
    (es.map Prod.fst).Nodup →
    ∀ (m : List (List Nat × List (List Nat))) (t : List Nat),
      lookupA t (es.foldl (fun m e =>
        if containsA e.1 m then updateA e.1 (fun hits => hits ++ e.2) m
        else m ++ [e]) m)
        = match lookupA t es with
          | some v => some ((lookupA t m).getD [] ++ v)
          | none => lookupA t m := by
  induction es with
  | nil => intro _ m t; simp
  | cons e rest ih =>
      intro hnd m t
      rw [List.map_cons, List.nodup_cons] at hnd
      rw [List.foldl_cons]
      have hstep : ∀ t2, lookupA t2 (if containsA e.1 m then
          updateA e.1 (fun hits => hits ++ e.2) m else m ++ [e])
          = if e.1 = t2 then some ((lookupA t2 m).getD [] ++ e.2)
            else lookupA t2 m := by
        intro t2
        by_cases hc : containsA e.1 m = true
        · rw [if_pos hc]
          by_cases ht2 : e.1 = t2
          · subst ht2
            rw [if_pos rfl, lookupA_updateA_self]
            rw [containsA_eq_isSome_lookupA] at hc
            rcases ho : lookupA e.1 m with _ | v0
            · rw [ho] at hc; simp at hc
            · rfl
          · rw [if_neg ht2, lookupA_updateA_ne _ _ (Ne.symm ht2)]
        · simp only [Bool.not_eq_true] at hc
          rw [if_neg (by simp [hc])]
          by_cases ht2 : e.1 = t2
          · subst ht2
            have hnone : lookupA e.1 m = none := by
              rcases ho : lookupA e.1 m with _ | v0
              · rfl
              · rw [containsA_eq_isSome_lookupA, ho] at hc; simp at hc
            rw [if_pos rfl, lookupA_append, hnone]
            simp [hnone]
          · rw [if_neg ht2, lookupA_append]
            rcases ho : lookupA t2 m with _ | v0
            · simp only []
              rw [lookupA_cons, if_neg (by simpa using ht2)]
              rfl
            · rfl
      rw [ih hnd.2 _ t]
      by_cases ht : e.1 = t
      · subst ht
        have hrest : lookupA e.1 rest = none := by
          rcases ho : lookupA e.1 rest with _ | v0
          · rfl
          · have hcr : containsA e.1 rest = true := by
              rw [containsA_eq_isSome_lookupA, ho]; rfl
            exact absurd ((containsA_true_iff _ _).mp hcr) hnd.1
        simp only [hrest, lookupA_cons, beq_self_eq_true, if_true,
          ite_true, hstep e.1, if_pos rfl]
      · have hne : (e.1 == t) = false := by simpa using ht
        simp only [lookupA_cons, hne, Bool.false_eq_true, if_false,
          ite_false, hstep t, if_neg ht]

/-- Claim C6: merging appends the incoming hit lists. For every term,
after `a.merge b` the hit list is the previous list of `a` with the
hits of `b` appended in order (terms only in `b` get exactly the list
from `b`), and the word counts add. The hypothesis is the `HashMap` key
invariant of `b`. -/
theorem claim_C6 (a b : InMemoryIndex)
    (hb : (b.map.map Prod.fst).Nodup) :
    (a.merge b).word_count = a.word_count + b.word_count ∧
    ∀ t, lookupA t (a.merge b).map
      = match lookupA t b.map with
        | some v => some ((lookupA t a.map).getD [] ++ v)
        | none => lookupA t a.map :=
  ⟨rfl, merge_fold_lookup b.map hb a.map⟩

/-- Witness for claim C6 at two concrete one-term indexes sharing the
term of `sampleIndex`. -/
theorem claim_C6_witness :
    ((sampleIndex.map.map Prod.fst).Nodup) ∧
    (sampleIndex.merge sampleIndex).word_count
      = sampleIndex.word_count + sampleIndex.word_count ∧
    lookupA (strBytes "a") (sampleIndex.merge sampleIndex).map
      = some ([encodeHit (List.replicate 32 0) [0]] ++
          [encodeHit (List.replicate 32 0) [0]]) := by
  have h := claim_C6 sampleIndex sampleIndex (by decide)
  refine ⟨by decide, h.1, ?_⟩
  have h2 := h.2 (strBytes "a")
  rw [show lookupA (strBytes "a") sampleIndex.map
    = some [encodeHit (List.replicate 32 0) [0]] from by decide] at h2
  simpa using h2

theorem hexVal_hexDigit {d : Nat} (hd : d < 16) : hexVal (hexDigit d) = d := by
  interval_cases d <;> decide

theorem toHex_foldl (n : Nat) : ∀ acc : Nat,
    (toHex n).foldl (fun a c => 16 * a + hexVal c) acc
      = acc * 16 ^ (toHex n).length + n := by
  induction n using Nat.strong_induction_on with
  | _ n ih =>
      intro acc
      by_cases h : n < 16
      · rw [toHex, dif_pos h]
        simp [List.foldl, hexVal_hexDigit h]
        omega
      · rw [toHex, dif_neg h]
        rw [List.foldl_append,
          ih (n / 16) (Nat.div_lt_self (by omega) (by omega)) acc]
        have hm : n % 16 < 16 := Nat.mod_lt n (by omega)
        simp only [List.foldl_cons, List.foldl_nil, hexVal_hexDigit hm,
          List.length_append, List.length_singleton]
        rw [pow_succ, ← Nat.mul_assoc]
        generalize acc * 16 ^ (toHex (n / 16)).length = A
        omega

theorem decodeHex_toHex (n : Nat) : decodeHex (toHex n) = n := by
  rw [decodeHex, toHex_foldl]
  simp

theorem decodeHex_pad8_toHex (n : Nat) : decodeHex (pad8 (toHex n)) = n := by
  rw [pad8, decodeHex, List.foldl_append]
  have hz : ∀ k : Nat,
      (List.replicate k '0').foldl (fun a c => 16 * a + hexVal c) 0 = 0 := by
    intro k
    induction k with
    | zero => rfl
    | succ k ihk =>
        rw [List.replicate_succ, List.foldl_cons]
        simpa using ihk
  rw [hz]
  exact decodeHex_toHex n

theorem tmpName_inj (dir : List Char) {m1 m2 : Nat}
    (h : tmpName dir m1 = tmpName dir m2) : m1 = m2 := by
  unfold tmpName at h
  rw [List.append_assoc, List.append_assoc] at h
  have h2 := List.append_cancel_left h
  simp only [List.cons_append, List.cons.injEq, true_and] at h2
  have h3 : pad8 (toHex m1) ++ ('.' :: 'd' :: 'a' :: 't' :: [])
      = pad8 (toHex m2) ++ ('.' :: 'd' :: 'a' :: 't' :: []) := h2
  have h4 := List.append_cancel_right h3
  have h5 := congrArg decodeHex h4
  rw [decodeHex_pad8_toHex, decodeHex_pad8_toHex] at h5
  exact h5

theorem createLoop_ok (dir : List Char) (fs : List (List Char))
    (retry n n2 : Nat) (fname : List Char)
    (h : createLoop dir fs n retry = (.ok fname, n2)) :
    ∃ m, n ≤ m ∧ fname = tmpName dir m ∧ n2 = m + 1 := by
  rw [createLoop] at h
  split at h
  · split at h
    · obtain ⟨m, hm1, hm2, hm3⟩ :=
        createLoop_ok dir fs (retry + 1) (n + 1) n2 fname h
      exact ⟨m, by omega, hm2, hm3⟩
    · exact absurd h (by simp)
  · simp only [Prod.mk.injEq, Except.ok.injEq] at h
    exact ⟨n, Nat.le_refl n, h.1.symm, h.2.symm⟩
termination_by 10 - retry

theorem create_ok (t : TmpDir) (fs : List (List Char))
    (fname : List Char) (t2 : TmpDir) (fs2 : List (List Char))
    (h : t.create fs = (.ok fname, t2, fs2)) :
    ∃ m, t.n ≤ m ∧ fname = tmpName t.dir m ∧ t2.n = m + 1 ∧
      t2.dir = t.dir := by
  unfold TmpDir.create at h
  split at h
  · rename_i fname2 n2 hloop
    simp only [Prod.mk.injEq, Except.ok.injEq] at h
    obtain ⟨m, hm1, hm2, hm3⟩ := createLoop_ok t.dir fs 1 t.n n2 fname2 hloop
    refine ⟨m, hm1, ?_, ?_, ?_⟩
    · rw [← h.1, hm2]
    · rw [← h.2.1]
      simpa using hm3
    · rw [← h.2.1]
  · simp at h

theorem createSeq_spec (fss : List (List (List Char))) :
    ∀ (t tf : TmpDir) (names : List (List Char)),
      createSeq t fss = some (names, tf) →
      tf.dir = t.dir ∧ t.n ≤ tf.n ∧
      (∀ nm ∈ names, ∃ m, t.n ≤ m ∧ m < tf.n ∧ nm = tmpName t.dir m) ∧
      names.Nodup ∧ names.length = fss.length := by
  induction fss with
  | nil =>
      intro t tf names h
      simp only [createSeq, Option.some.injEq, Prod.mk.injEq] at h
      obtain ⟨h1, h2⟩ := h
      subst h1
      subst h2
      exact ⟨rfl, Nat.le_refl _, by simp, List.nodup_nil, rfl⟩
  | cons fs rest ih =>
      intro t tf names h
      rw [createSeq] at h
      split at h
      · rename_i fname t2 fs2 hcreate
        split at h
        · rename_i names2 tf2 hseq
          simp only [Option.some.injEq, Prod.mk.injEq] at h
          obtain ⟨h1, h2⟩ := h
          subst h1
          subst h2
          obtain ⟨m, hm1, hm2, hm3, hm4⟩ := create_ok t fs fname t2 _ hcreate
          obtain ⟨k1, k2, k3, k4, k5⟩ := ih t2 tf2 names2 hseq
          refine ⟨by rw [k1, hm4], by omega, ?_, ?_, by simpa using k5⟩
          · intro nm hnm
            rcases List.mem_cons.mp hnm with hh | hh
            · exact ⟨m, hm1, by omega, by rw [hh, hm2]⟩
            · obtain ⟨m2, hq1, hq2, hq3⟩ := k3 nm hh
              exact ⟨m2, by omega, hq2, by rw [hq3, hm4]⟩
          · rw [List.nodup_cons]
            refine ⟨?_, k4⟩
            intro hmem
            obtain ⟨m2, hq1, hq2, hq3⟩ := k3 fname hmem
            rw [hm2, hm4] at hq3
            have := tmpName_inj t.dir hq3
            omega
        · exact Option.noConfusion h
      · exact Option.noConfusion h

/-- Claim C8: any number of sequential `TmpDir::create` calls on one
allocator that all succeed return pairwise-distinct filenames: the
counter advances on every attempt (failed exclusive creates included),
so no name is handed out twice. -/
theorem claim_C8 (t tf : TmpDir) (fss : List (List (List Char)))
    (names : List (List Char))
    (h : createSeq t fss = some (names, tf)) :
    names.Nodup ∧ names.length = fss.length :=
  ⟨(createSeq_spec fss t tf names h).2.2.2.1,
   (createSeq_spec fss t tf names h).2.2.2.2⟩

theorem createLoop_not_mem (dir : List Char) (fs : List (List Char))
    (n retry : Nat) (h : tmpName dir n ∉ fs) :
    createLoop dir fs n retry = (.ok (tmpName dir n), n + 1) := by
  rw [createLoop]
  rw [if_neg h]

/-- Witness for claim C8: three successful allocations from a fresh
allocator over an empty directory produce three distinct names. -/
theorem claim_C8_witness :
    (createSeq (TmpDir.new []) [[], [], []]
      = some ([tmpName [] 1, tmpName [] 2, tmpName [] 3], ⟨[], 4⟩)) ∧
    ([tmpName [] 1, tmpName [] 2, tmpName [] 3] :
      List (List Char)).Nodup := by
  have hc : ∀ n : Nat, (TmpDir.mk [] n).create []
      = (.ok (tmpName [] n), ⟨[], n + 1⟩, [tmpName [] n]) := by
    intro n
    unfold TmpDir.create
    rw [createLoop_not_mem [] [] n 1 (List.not_mem_nil _)]
  have h : createSeq (TmpDir.new []) [[], [], []]
      = some ([tmpName [] 1, tmpName [] 2, tmpName [] 3], ⟨[], 4⟩) := by
    rw [show TmpDir.new [] = TmpDir.mk [] 1 from rfl]
    simp only [createSeq, hc 1, hc 2, hc 3]
  exact ⟨h, (claim_C8 (TmpDir.new []) ⟨[], 4⟩ [[], [], []] _ h).1⟩

/-! ## Table-of-contents error handling (both reader paths) -/

theorem read_entry_eof_start {bs : List Nat} (h : bs.length < 8) :
    read_entry bs = .ok (none, bs) := by
  have hu : readU64 bs = .error .unexpectedEof := by
    rw [readU64, if_neg (by omega)]
  simp only [read_entry, hu]
  rfl

theorem drop8_drop8 (bs : List Nat) : (bs.drop 8).drop 8 = bs.drop 16 := by
  rw [List.drop_drop]

theorem drop16_drop4 (bs : List Nat) : (bs.drop 16).drop 4 = bs.drop 20 := by
  rw [List.drop_drop]

theorem drop20_drop4 (bs : List Nat) : (bs.drop 20).drop 4 = bs.drop 24 := by
  rw [List.drop_drop]

theorem read_entry_eof_mid {bs : List Nat} (h8 : 8 ≤ bs.length)
    (hlt : bs.length < 24 + decodeLE ((bs.drop 20).take 4)) :
    read_entry bs = .error .unexpectedEof := by
  have e1 : readU64 bs = .ok (decodeLE (bs.take 8), bs.drop 8) :=
    readU64_eq_ok h8
  by_cases h16 : 16 ≤ bs.length
  · have e2 : readU64 (bs.drop 8)
        = .ok (decodeLE ((bs.drop 8).take 8), bs.drop 16) := by
      rw [readU64, if_pos (by simp; omega), drop8_drop8]
    by_cases h20 : 20 ≤ bs.length
    · have e3 : readU32 (bs.drop 16)
          = .ok (decodeLE ((bs.drop 16).take 4), bs.drop 20) := by
        rw [readU32, if_pos (by simp; omega), drop16_drop4]
      by_cases h24 : 24 ≤ bs.length
      · have e4 : readU32 (bs.drop 20)
            = .ok (decodeLE ((bs.drop 20).take 4), bs.drop 24) := by
          rw [readU32, if_pos (by simp; omega), drop20_drop4]
        have e5 : readExact (bs.drop 24) (decodeLE ((bs.drop 20).take 4))
            = .error .unexpectedEof := by
          rw [readExact, if_neg (by simp; omega)]
        simp only [read_entry, e1, e2, e3, e4, e5]
      · have e4 : readU32 (bs.drop 20) = .error .unexpectedEof := by
          rw [readU32, if_neg (by simp; omega)]
        simp only [read_entry, e1, e2, e3, e4]
    · have e3 : readU32 (bs.drop 16) = .error .unexpectedEof := by
        rw [readU32, if_neg (by simp; omega)]
      simp only [read_entry, e1, e2, e3]
  · have e2 : readU64 (bs.drop 8) = .error .unexpectedEof := by
      rw [readU64, if_neg (by simp; omega)]
    simp only [read_entry, e1, e2]

theorem read_entry_unicode {bs : List Nat}
    (hge : 24 + decodeLE ((bs.drop 20).take 4) ≤ bs.length)
    (hinv : validUTF8 ((bs.drop 24).take
      (decodeLE ((bs.drop 20).take 4))) = false) :
    read_entry bs = .error (.other "Unicode fail") := by
  have e1 : readU64 bs = .ok (decodeLE (bs.take 8), bs.drop 8) :=
    readU64_eq_ok (by omega)
  have e2 : readU64 (bs.drop 8)
      = .ok (decodeLE ((bs.drop 8).take 8), bs.drop 16) := by
    rw [readU64, if_pos (by simp; omega), drop8_drop8]
  have e3 : readU32 (bs.drop 16)
      = .ok (decodeLE ((bs.drop 16).take 4), bs.drop 20) := by
    rw [readU32, if_pos (by simp; omega), drop16_drop4]
  have e4 : readU32 (bs.drop 20)
      = .ok (decodeLE ((bs.drop 20).take 4), bs.drop 24) := by
    rw [readU32, if_pos (by simp; omega), drop20_drop4]
  have e5 : readExact (bs.drop 24) (decodeLE ((bs.drop 20).take 4))
      = .ok ((bs.drop 24).take (decodeLE ((bs.drop 20).take 4)),
          (bs.drop 24).drop (decodeLE ((bs.drop 20).take 4))) := by
    rw [readExact, if_pos (by simp; omega)]
  have e6 : string_from_utf8 ((bs.drop 24).take
      (decodeLE ((bs.drop 20).take 4))) = .error () := by
    rw [string_from_utf8, if_neg (by simp [hinv])]
  simp only [read_entry, e1, e2, e3, e4, e5, e6]

theorem readTocRecord_eof_mid {bs : List Nat} (h8 : 8 ≤ bs.length)
    (hlt : bs.length < 24 + decodeLE ((bs.drop 20).take 4)) :
    readTocRecord bs = .ioError .unexpectedEof := by
  have e1 : readU64 bs = .ok (decodeLE (bs.take 8), bs.drop 8) :=
    readU64_eq_ok h8
  by_cases h16 : 16 ≤ bs.length
  · have e2 : readU64 (bs.drop 8)
        = .ok (decodeLE ((bs.drop 8).take 8), bs.drop 16) := by
      rw [readU64, if_pos (by simp; omega), drop8_drop8]
    by_cases h20 : 20 ≤ bs.length
    · have e3 : readU32 (bs.drop 16)
          = .ok (decodeLE ((bs.drop 16).take 4), bs.drop 20) := by
        rw [readU32, if_pos (by simp; omega), drop16_drop4]
      by_cases h24 : 24 ≤ bs.length
      · have e4 : readU32 (bs.drop 20)
            = .ok (decodeLE ((bs.drop 20).take 4), bs.drop 24) := by
          rw [readU32, if_pos (by simp; omega), drop20_drop4]
        have e5 : readExact (bs.drop 24) (decodeLE ((bs.drop 20).take 4))
            = .error .unexpectedEof := by
          rw [readExact, if_neg (by simp; omega)]
        simp only [readTocRecord, e1, e2, e3, e4, e5]
      · have e4 : readU32 (bs.drop 20) = .error .unexpectedEof := by
          rw [readU32, if_neg (by simp; omega)]
        simp only [readTocRecord, e1, e2, e3, e4]
    · have e3 : readU32 (bs.drop 16) = .error .unexpectedEof := by
        rw [readU32, if_neg (by simp; omega)]
      simp only [readTocRecord, e1, e2, e3]
  · have e2 : readU64 (bs.drop 8) = .error .unexpectedEof := by
      rw [readU64, if_neg (by simp; omega)]
    simp only [readTocRecord, e1, e2]

theorem readTocRecord_unicode {bs : List Nat}
    (hge : 24 + decodeLE ((bs.drop 20).take 4) ≤ bs.length)
    (hinv : validUTF8 ((bs.drop 24).take
      (decodeLE ((bs.drop 20).take 4))) = false) :
    readTocRecord bs = .unicodePanic := by
  have e1 : readU64 bs = .ok (decodeLE (bs.take 8), bs.drop 8) :=
    readU64_eq_ok (by omega)
  have e2 : readU64 (bs.drop 8)
      = .ok (decodeLE ((bs.drop 8).take 8), bs.drop 16) := by
    rw [readU64, if_pos (by simp; omega), drop8_drop8]
  have e3 : readU32 (bs.drop 16)
      = .ok (decodeLE ((bs.drop 16).take 4), bs.drop 20) := by
    rw [readU32, if_pos (by simp; omega), drop16_drop4]
  have e4 : readU32 (bs.drop 20)
      = .ok (decodeLE ((bs.drop 20).take 4), bs.drop 24) := by
    rw [readU32, if_pos (by simp; omega), drop20_drop4]
  have e5 : readExact (bs.drop 24) (decodeLE ((bs.drop 20).take 4))
      = .ok ((bs.drop 24).take (decodeLE ((bs.drop 20).take 4)),
          (bs.drop 24).drop (decodeLE ((bs.drop 20).take 4))) := by
    rw [readExact, if_pos (by simp; omega)]
  have e6 : string_from_utf8 ((bs.drop 24).take
      (decodeLE ((bs.drop 20).take 4))) = .error () := by
    rw [string_from_utf8, if_neg (by simp [hinv])]
  simp only [readTocRecord, e1, e2, e3, e4, e5, e6]

/-- Claim C5 counterexample: a file whose single table record carries
the non-UTF-8 term byte `0xFF`. The full-decode path does not report a
decode error to the caller: `String::from_utf8(term).unwrap()` panics.
(The streaming path on the same record returns an error, see the
amended claim.) -/
theorem claim_C5_counterexample :
    validUTF8 [0xFF] = false ∧
    get_index_from_file
        (encodeLE 8 8 ++ (encodeLE 8 8 ++ encodeLE 8 0 ++ encodeLE 4 0 ++
          encodeLE 4 1 ++ [0xFF]))
      = .panicked "byte vector is not valid UTF-8" := by
  refine ⟨by decide, ?_⟩
  have hu : readU64 (encodeLE 8 8 ++ (encodeLE 8 8 ++ encodeLE 8 0 ++
      encodeLE 4 0 ++ encodeLE 4 1 ++ [0xFF]))
      = .ok (8, encodeLE 8 8 ++ encodeLE 8 0 ++ encodeLE 4 0 ++
          encodeLE 4 1 ++ [0xFF]) :=
    readU64_encodeLE 8 _ (by norm_num)
  simp only [get_index_from_file, hu]
  rw [List.drop_left' (encodeLE_length 8 8)]
  refine tocLoop_unicodePanic _ _ _ _ ?_
  refine readTocRecord_unicode (by decide) (by decide)

/-- Claim C5 as amended: in both reader paths, end-of-input exactly at
the first field of a table record is the normal end of the table (no
error), and end-of-input in the middle of a record is reported to the
caller as a fatal `UnexpectedEof` error. For term bytes that are not
valid text, the streaming reader (`read_entry`) reports an
`Other("Unicode fail")` error to the caller, while the full-decode loop
panics on the `unwrap` instead of returning an error. -/
theorem claim_C5_amended :
    (∀ bs : List Nat, bs.length < 8 → read_entry bs = .ok (none, bs)) ∧
    (∀ bs : List Nat, 8 ≤ bs.length →
      bs.length < 24 + decodeLE ((bs.drop 20).take 4) →
      read_entry bs = .error .unexpectedEof) ∧
    (∀ bs : List Nat, 24 + decodeLE ((bs.drop 20).take 4) ≤ bs.length →
      validUTF8 ((bs.drop 24).take (decodeLE ((bs.drop 20).take 4)))
        = false →
      read_entry bs = .error (.other "Unicode fail")) ∧
    (∀ (file table : List Nat) (m : List (List Nat × DocEntry)) (wc : Nat),
      table.length < 8 → tocLoop file table m wc = .ok ⟨wc, m⟩) ∧
    (∀ (file table : List Nat) (m : List (List Nat × DocEntry)) (wc : Nat),
      8 ≤ table.length →
      table.length < 24 + decodeLE ((table.drop 20).take 4) →
      tocLoop file table m wc = .err .unexpectedEof) ∧
    (∀ (file table : List Nat) (m : List (List Nat × DocEntry)) (wc : Nat),
      24 + decodeLE ((table.drop 20).take 4) ≤ table.length →
      validUTF8 ((table.drop 24).take (decodeLE ((table.drop 20).take 4)))
        = false →
      tocLoop file table m wc
        = .panicked "byte vector is not valid UTF-8") := by
  refine ⟨?_, ?_, ?_, ?_, ?_, ?_⟩
  · exact fun bs h => read_entry_eof_start h
  · exact fun bs h8 hlt => read_entry_eof_mid h8 hlt
  · exact fun bs hge hinv => read_entry_unicode hge hinv
  · exact fun file table m wc h =>
      tocLoop_endOfToc file table m wc (readTocRecord_endOfToc h)
  · exact fun file table m wc h8 hlt =>
      tocLoop_ioError file table m wc _ (readTocRecord_eof_mid h8 hlt)
  · exact fun file table m wc hge hinv =>
      tocLoop_unicodePanic file table m wc (readTocRecord_unicode hge hinv)

/-- Witness for the amended claim C5: a 25-byte record whose term byte
is `0xFF` makes the streaming reader return the Unicode decode error,
and a 3-byte table makes both paths end the table cleanly. -/
theorem claim_C5_witness :
    (24 + decodeLE (((encodeLE 8 8 ++ encodeLE 8 0 ++ encodeLE 4 0 ++
        encodeLE 4 1 ++ [0xFF]).drop 20).take 4)
      ≤ (encodeLE 8 8 ++ encodeLE 8 0 ++ encodeLE 4 0 ++
        encodeLE 4 1 ++ [0xFF]).length) ∧
    read_entry (encodeLE 8 8 ++ encodeLE 8 0 ++ encodeLE 4 0 ++
        encodeLE 4 1 ++ [0xFF])
      = .error (.other "Unicode fail") ∧
    read_entry [1, 2, 3] = .ok (none, [1, 2, 3]) :=
  ⟨by decide,
   claim_C5_amended.2.2.1 _ (by decide) (by decide),
   claim_C5_amended.1 [1, 2, 3] (by decide)⟩

/-! ## open_and_delete: deletion only after the reads succeed -/

/-- Claim C10: when `open_and_delete` fails (missing file, header read,
or first table-entry read), the directory is unchanged, so the backing
file has not been deleted; the file is removed exactly on the success
path, after the header and the first table entry were read. -/
theorem claim_C10 (fs : FileSys) (filename : List Nat) :
    (∀ e : IOError, (open_and_delete fs filename).1 = .error e →
      (open_and_delete fs filename).2 = fs) ∧
    (∀ r : IndexFileReader, (open_and_delete fs filename).1 = .ok r →
      (open_and_delete fs filename).2 = removeA filename fs) := by
  constructor
  · intro e he
    unfold open_and_delete at he ⊢
    split at he
    · rfl
    rename_i contents hlook
    split at he
    · rfl
    rename_i toff rest hread
    split at he
    · rfl
    rename_i first trest hentry
    exact absurd he (by simp)
  · intro r hr
    unfold open_and_delete at hr ⊢
    split at hr
    · exact absurd hr (by simp)
    rename_i contents hlook
    split at hr
    · exact absurd hr (by simp)
    rename_i toff rest hread
    split at hr
    · exact absurd hr (by simp)
    rename_i first trest hentry
    rfl

/-- Witness for claim C10: a directory holding one 3-byte file, too
short for the header; opening it fails with end-of-input and the file
survives. -/
theorem claim_C10_witness :
    (open_and_delete [([0], [1, 2, 3])] [0]).1
      = .error .unexpectedEof ∧
    (open_and_delete [([0], [1, 2, 3])] [0]).2 = [([0], [1, 2, 3])] :=
  ⟨rfl, (claim_C10 [([0], [1, 2, 3])] [0]).1 .unexpectedEof rfl⟩

/-- Witness for claim C7: the index of "cat dog cat" has builder word
count 3 (tokens) but decodes to word count 2 (table records). -/
theorem claim_C7_witness :
    (from_single_document (List.replicate 32 0)
      ("cat dog cat".data)).word_count = 3 ∧
    (from_single_document (List.replicate 32 0)
      ("cat dog cat".data)).map.length = 2 ∧
    ∃ p : ParsedIndex,
      get_index_from_file (write_index_to_tmp_file
        (from_single_document (List.replicate 32 0) ("cat dog cat".data)))
        = .ok p ∧
      p.word_count = (from_single_document (List.replicate 32 0)
        ("cat dog cat".data)).map.length :=
  ⟨by decide, by decide,
    claim_C7 (from_single_document (List.replicate 32 0) ("cat dog cat".data))
      (by decide) (by decide)⟩

end IndexTools

